import Mathlib

/-!
Porter stemmer: shallow embedding of `helpers.cpp` and `stemmer.h`.

A `std::string` is a list of characters.  C++ `int` and `size_t` values are
modelled by `Int`; this is exact for strings shorter than `2^31` characters,
which is the range in which the source's own `int` counters are meaningful.

Every function that can throw (`std::string::at`, `std::string::substr`) or
abort (`assert(false)`) returns an `Option`: `none` stands for the thrown
`std::out_of_range` or the failed assertion.  The `while`/`for` loops are
recursive functions on a fuel argument that is initialised from the string
length; running out of fuel is also `none`, so a result `some v` always means
that the C++ function returns `v`.
-/

namespace Stemmer

/-- The value of a `std::string`. -/
abbrev Word := List Char

/-! ## `std::string` members used by the source -/

/-- Member `std::string::at(pos)`: the character at `pos`, or `none` for the
`std::out_of_range` it throws when `pos >= size()`.  A negative `int` index
converts to a huge `size_t`, which is out of range as well. -/
def str_at (s : Word) (pos : Int) : Option Char :=
  if 0 ≤ pos ∧ pos < (s.length : Int) then s[pos.toNat]? else none

/-- Member `std::string::substr(pos, count)`: `none` for the
`std::out_of_range` thrown when `pos > size()`; otherwise the characters
`[pos, min(pos + count, size()))`.  A negative `count` converts to a huge
`size_t`, so the substring then runs to the end of the string. -/
def substr (s : Word) (pos count : Int) : Option Word :=
  if pos < 0 ∨ (s.length : Int) < pos then none
  else if count < 0 then some (s.drop pos.toNat)
  else some ((s.drop pos.toNat).take count.toNat)

/-- Function `std::tolower` in the "C" locale. -/
def tolower (c : Char) : Char :=
  if 65 ≤ c.toNat ∧ c.toNat ≤ 90 then Char.ofNat (c.toNat + 32) else c

/-! ## helpers.cpp -/

/-- Source `new_ending`:
`candidate.substr(0, candidate.length() - suffix_length) + replacement`.
When `suffix_length` exceeds the length, the `size_t` difference wraps to a
huge count, which is the negative `count` of `substr`. -/
def new_ending (candidate : Word) (suffix_length : Int) (replacement : Word) :
    Option Word :=
  (substr candidate 0 ((candidate.length : Int) - suffix_length)).map
    fun head => head ++ replacement

/-- The `for (int i = 0; i < suffix.length(); i++)` loop of `ends_with`,
entered with the current value of `i`. -/
def ends_with_loop (candidate suffix : Word) : Nat → Int → Option Bool
  | 0, _ => none
  | fuel + 1, i =>
    if i < (suffix.length : Int) then
      (str_at suffix ((suffix.length : Int) - 1 - i)).bind fun a =>
      (str_at candidate ((candidate.length : Int) - 1 - i)).bind fun b =>
      if a ≠ b then some false
      else ends_with_loop candidate suffix fuel (i + 1)
    else some true

/-- Source `ends_with`. -/
def ends_with (candidate suffix : Word) : Option Bool :=
  if candidate.length < suffix.length then some false
  else ends_with_loop candidate suffix (suffix.length + 1) 0

/-- Source `is_vowel`. -/
def is_vowel (c : Char) : Bool :=
  let lower_c := tolower c
  lower_c == 'a' || lower_c == 'e' || lower_c == 'i' ||
    lower_c == 'o' || lower_c == 'u'

/-- Source `is_consonant`. -/
def is_consonant (c : Char) : Bool := !is_vowel c

/-- Source `ends_with_double_consonant`. -/
def ends_with_double_consonant (str : Word) : Option Bool :=
  if str.length < 2 then some false
  else
    (str_at str ((str.length : Int) - 1)).bind fun c =>
    if is_consonant c then
      (str_at str ((str.length : Int) - 1)).bind fun a =>
      (str_at str ((str.length : Int) - 2)).bind fun b =>
      some (a == b)
    else some false

/-- The `while` loop of `count_consonants_at_front`, entered with the current
value of `count`. -/
def count_consonants_at_front_loop (str : Word) : Nat → Int → Option Int
  | 0, _ => none
  | fuel + 1, count =>
    if count < (str.length : Int) then
      (str_at str count).bind fun c =>
      if is_consonant c then count_consonants_at_front_loop str fuel (count + 1)
      else some count
    else some count

/-- Source `count_consonants_at_front`. -/
def count_consonants_at_front (str : Word) : Option Int :=
  count_consonants_at_front_loop str (str.length + 1) 0

/-- The `while` loop of `count_vowels_at_back`, entered with the current value
of `count`. -/
def count_vowels_at_back_loop (str : Word) (adjusted_str_length : Int) :
    Nat → Int → Option Int
  | 0, _ => none
  | fuel + 1, count =>
    if adjusted_str_length - count ≥ 0 then
      (str_at str (adjusted_str_length - count)).bind fun c =>
      if is_vowel c then
        count_vowels_at_back_loop str adjusted_str_length fuel (count + 1)
      else some count
    else some count

/-- Source `count_vowels_at_back`.  On the empty string
`int adjusted_str_length = str.length() - 1` is `-1`. -/
def count_vowels_at_back (str : Word) : Option Int :=
  let adjusted_str_length : Int := (str.length : Int) - 1
  count_vowels_at_back_loop str adjusted_str_length (str.length + 1) 0

/-- Source `ends_with_cvc`. -/
def ends_with_cvc (str : Word) : Option Bool :=
  if str.length < 3 then some false
  else
    (str_at str ((str.length : Int) - 1)).bind fun c1 =>
    if is_consonant c1 then
      (str_at str ((str.length : Int) - 2)).bind fun c2 =>
      if is_vowel c2 then
        (str_at str ((str.length : Int) - 3)).bind fun c3 =>
        some (is_consonant c3)
      else some false
    else some false

/-- The `for (int i = 0; i < str.length(); i++)` loop of `contains_vowel`,
entered with the current value of `i`. -/
def contains_vowel_loop (str : Word) : Nat → Int → Option Bool
  | 0, _ => none
  | fuel + 1, i =>
    if i < (str.length : Int) then
      (str_at str i).bind fun c =>
      if is_vowel c then some true
      else contains_vowel_loop str fuel (i + 1)
    else some false

/-- Source `contains_vowel`. -/
def contains_vowel (str : Word) : Option Bool :=
  contains_vowel_loop str (str.length + 1) 0

/-! ## stemmer.h -/

/-- Source `enum class LetterType`. -/
inductive LetterType where
  | vowel
  | consonant
  deriving DecidableEq, Repr

/-- Source `get_letter_type`. -/
def get_letter_type (c : Char) : LetterType :=
  if is_vowel c then LetterType.vowel else LetterType.consonant

/-- The `for (int i = 1; i < calculable.length(); i++)` loop of `calculate_m`,
entered with the current values of `i`, `last_letter_type` and `m`; it yields
the final `m`. -/
def calculate_m_loop (calculable : Word) :
    Nat → Int → LetterType → Int → Option Int
  | 0, _, _, _ => none
  | fuel + 1, i, last_letter_type, m =>
    if i < (calculable.length : Int) then
      (str_at calculable i).bind fun c =>
      if last_letter_type ≠ get_letter_type c then
        (str_at calculable i).bind fun c2 =>
        calculate_m_loop calculable fuel (i + 1) (get_letter_type c2) (m + 1)
      else calculate_m_loop calculable fuel (i + 1) last_letter_type m
    else some m

/-- Source `calculate_m`.  The branch `begin > end` ends in `assert(false)`
and is `none`. -/
def calculate_m (str : Word) : Option Int :=
  (count_consonants_at_front str).bind fun begin =>
  (count_vowels_at_back str).bind fun n_back =>
  let end_ : Int := (str.length : Int) - n_back
  if begin > end_ then none
  else
    (substr str begin (end_ - begin)).bind fun calculable =>
    if calculable.length = 0 then some 0
    else
      (calculate_m_loop calculable (calculable.length + 1) 1
        LetterType.vowel 0).map fun m => (m + 1) / 2

/-- Source `maybe_remove_suffix`. -/
def maybe_remove_suffix (candidate suffix : Word) : Option Word :=
  (ends_with candidate suffix).bind fun e =>
  if e then new_ending candidate (suffix.length : Int) []
  else some candidate

set_option linter.unusedVariables false in
/-- Source `apply_rule`.  The reference parameter `result` is passed in with
its value before the call; the returned pair is the `bool` return value and
the value of `result` after the call.  Both paths assign `result`, so the
value before the call is not read. -/
def apply_rule (candidate suffix replacement : Word) (result : Word) :
    Option (Bool × Word) :=
  (ends_with candidate suffix).bind fun e =>
  if e then
    (new_ending candidate (suffix.length : Int) replacement).map
      fun r => (true, r)
  else some (false, candidate)

/-! ### Boolean expressions that write `result`

The steps are written in the source as chains of `&&` and `||` whose operands
call `apply_rule` on the local variable `result`.  Such an expression is a
function from the current value of `result` to its truth value and the new
value of `result`. -/

/-- A C++ `bool` expression evaluated for its value and its effect on the
local `result`. -/
abbrev Cond := Word → Option (Bool × Word)

/-- An operand that reads but does not write `result`. -/
def test (f : Word → Option Bool) : Cond :=
  fun result => (f result).map fun b => (b, result)

/-- Short-circuit `a && b`. -/
def and_then (a b : Cond) : Cond :=
  fun result => (a result).bind fun p =>
    if p.1 then b p.2 else some (false, p.2)

/-- Short-circuit `a || b`. -/
def or_else (a b : Cond) : Cond :=
  fun result => (a result).bind fun p =>
    if p.1 then some (true, p.2) else b p.2

/-- Short-circuit chain `c1 || c2 || ... || cn`. -/
def or_chain : List Cond → Cond
  | [] => fun result => some (false, result)
  | c :: cs => or_else c (or_chain cs)

/-- The operand `calculate_m(maybe_remove_suffix(base, suffix)) > k`. -/
def m_gt (k : Int) (base suffix : Word) : Cond :=
  test fun _ =>
    (maybe_remove_suffix base suffix).bind fun stem =>
    (calculate_m stem).map fun m => decide (m > k)

/-- The operand
`(calculate_m(maybe_remove_suffix(base, suffix)) > k) && apply_rule(base, suffix, replacement, result)`
that makes up each line of `step_2`, `step_3` and `step_4`. -/
def m_rule (k : Int) (base : Word) (suffix replacement : String) : Cond :=
  and_then (m_gt k base suffix.toList)
    (apply_rule base suffix.toList replacement.toList)

/-- Source `step_1a`. -/
def step_1a (base : Word) : Option Word :=
  let result := base
  (or_chain [
    apply_rule base "sses".toList "ss".toList,
    apply_rule base "ies".toList "i".toList,
    apply_rule base "ss".toList "ss".toList,
    apply_rule base "s".toList "".toList] result).map fun p => p.2

/-- The test `result.at(result.length() - 1) == ch` on the current `result`. -/
def last_is (ch : Char) : Cond :=
  test fun result =>
    (str_at result ((result.length : Int) - 1)).map fun c => c == ch

/-- Negation `!c` of an operand. -/
def not_ (c : Cond) : Cond :=
  fun result => (c result).map fun p => (!p.1, p.2)

/-- The call
`apply_rule(result, std::string(1, result.at(result.length() - 1)), "", result)`
of `step_1b`. -/
def drop_last_letter : Cond :=
  fun result =>
    (str_at result ((result.length : Int) - 1)).bind fun c =>
    apply_rule result [c] [] result

/-- The operand `std::string("") != (result = result + std::string("e"))` of
`step_1b`. -/
def append_e : Cond :=
  fun result =>
    let result := result ++ "e".toList
    some (decide (([] : Word) ≠ result), result)

/-- Source `step_1b`. -/
def step_1b (base : Word) : Option Word :=
  let result := base
  (ends_with base "eed".toList).bind fun is_eed =>
  if is_eed then
    (m_gt 0 base "eed".toList result).bind fun p =>
    if p.1 then
      (apply_rule base "eed".toList "ee".toList result).map fun q => q.2
    else some result
  else
    (or_else
      (and_then
        (test fun _ =>
          (maybe_remove_suffix base "ed".toList).bind contains_vowel)
        (apply_rule base "ed".toList "".toList))
      (and_then
        (test fun _ =>
          (maybe_remove_suffix base "ing".toList).bind contains_vowel)
        (apply_rule base "ing".toList "".toList)) result).bind fun p =>
    let s1b1_or_2 := p.1
    let result := p.2
    if s1b1_or_2 then
      (or_chain [
        fun result => apply_rule result "at".toList "ate".toList result,
        fun result => apply_rule result "bl".toList "ble".toList result,
        fun result => apply_rule result "iz".toList "ize".toList result,
        and_then
          (and_then (test ends_with_double_consonant)
            (not_ (or_chain [last_is 'l', last_is 's', last_is 'z'])))
          drop_last_letter,
        and_then
          (and_then
            (test fun result => (calculate_m result).map fun m => decide (m = 1))
            (test ends_with_cvc))
          append_e] result).map fun q => q.2
    else some result

/-- Source `step_1c`. -/
def step_1c (base : Word) : Option Word :=
  let result := base
  ((maybe_remove_suffix base "y".toList).bind contains_vowel).bind fun c =>
  if c then
    (apply_rule base "y".toList "i".toList result).map fun p => p.2
  else some result

/-- Source `step_2`. -/
def step_2 (base : Word) : Option Word :=
  let result := base
  (or_chain [
    m_rule 0 base "ational" "ate",
    m_rule 0 base "tional" "tion",
    m_rule 0 base "enci" "ence",
    m_rule 0 base "anci" "ance",
    m_rule 0 base "izer" "ize",
    m_rule 0 base "abli" "able",
    m_rule 0 base "alli" "al",
    m_rule 0 base "entli" "ent",
    m_rule 0 base "eli" "e",
    m_rule 0 base "ousli" "ous",
    m_rule 0 base "ization" "ize",
    m_rule 0 base "ation" "ate",
    m_rule 0 base "ator" "ate",
    m_rule 0 base "alism" "al",
    m_rule 0 base "iveness" "ive",
    m_rule 0 base "fulness" "ful",
    m_rule 0 base "ousness" "ous",
    m_rule 0 base "aliti" "al",
    m_rule 0 base "iviti" "ive",
    m_rule 0 base "biliti" "ble"] result).map fun p => p.2

/-- Source `step_3`. -/
def step_3 (base : Word) : Option Word :=
  let result := base
  (or_chain [
    m_rule 0 base "icate" "ic",
    m_rule 0 base "ative" "",
    m_rule 0 base "alize" "al",
    m_rule 0 base "iciti" "ic",
    m_rule 0 base "ical" "ic",
    m_rule 0 base "ful" "",
    m_rule 0 base "ness" ""] result).map fun p => p.2

/-- The operand `ends_with(maybe_remove_suffix(base, "ion"), ch)` of
`step_4`. -/
def ion_stem_ends_with (base : Word) (ch : String) : Cond :=
  test fun _ =>
    (maybe_remove_suffix base "ion".toList).bind fun stem =>
    ends_with stem ch.toList

/-- Source `step_4`. -/
def step_4 (base : Word) : Option Word :=
  let result := base
  (or_chain [
    m_rule 1 base "al" "",
    m_rule 1 base "ance" "",
    m_rule 1 base "ence" "",
    m_rule 1 base "er" "",
    m_rule 1 base "ic" "",
    m_rule 1 base "able" "",
    m_rule 1 base "ible" "",
    m_rule 1 base "ant" "",
    m_rule 1 base "ement" "",
    m_rule 1 base "ment" "",
    m_rule 1 base "ent" "",
    and_then
      (and_then (m_gt 1 base "ion".toList)
        (or_else (ion_stem_ends_with base "s") (ion_stem_ends_with base "t")))
      (apply_rule base "ion".toList "".toList),
    m_rule 1 base "ou" "",
    m_rule 1 base "ism" "",
    m_rule 1 base "ate" "",
    m_rule 1 base "iti" "",
    m_rule 1 base "ous" "",
    m_rule 1 base "ive" "",
    m_rule 1 base "ize" ""] result).map fun p => p.2

/-- Source `step_5`. -/
def step_5 (base : Word) : Option Word :=
  let result := base
  (or_else
    (m_rule 1 base "e" "")
    (and_then
      (and_then
        (test fun _ =>
          (maybe_remove_suffix base "e".toList).bind fun stem =>
          (calculate_m stem).map fun m => decide (m = 1))
        (not_ (test fun _ =>
          (maybe_remove_suffix base "e".toList).bind ends_with_cvc)))
      (apply_rule base "e".toList "".toList)) result).bind fun did_step_5a =>
  let result := did_step_5a.2
  (and_then
    (and_then
      (and_then
        (test fun result => (calculate_m result).map fun m => decide (m > 1))
        (test ends_with_double_consonant))
      (last_is 'l'))
    (fun result => apply_rule result "l".toList "".toList result) result).map
    fun did_step_5b => did_step_5b.2

/-- The pipeline `stem`:
`step_5(step_4(step_3(step_2(step_1c(step_1b(step_1a(word)))))))`.  The source
files define the seven steps and no function that composes them; the
composition is written out here in the order 1a, 1b, 1c, 2, 3, 4, 5, and it
returns as soon as a step fails to return. -/
def stem (word : Word) : Option Word :=
  (step_1a word).bind fun w1a =>
  (step_1b w1a).bind fun w1b =>
  (step_1c w1b).bind fun w1c =>
  (step_2 w1c).bind fun w2 =>
  (step_3 w2).bind fun w3 =>
  (step_4 w3).bind fun w4 =>
  step_5 w4

/-! ## Reference functions in which the properties are stated -/

/-- The consonant-vowel-consonant test as the specification words it: false
below three characters, otherwise true exactly when the last three characters
are consonant, vowel, consonant and the final one is none of `w`, `x`, `y`. -/
def ends_with_cvc_excluding_wxy (s : Word) : Bool :=
  match s.reverse with
  | c2 :: v :: c1 :: _ =>
    is_consonant c1 && is_vowel v && is_consonant c2 &&
      !(c2 == 'w' || c2 == 'x' || c2 == 'y')
  | _ => false

/-- Number of changes of letter type met by the loop of `calculate_m` when it
scans `w` after a letter of type `last`. -/
def flips : LetterType → Word → Nat
  | _, [] => 0
  | last, c :: t =>
    if last ≠ get_letter_type c then 1 + flips (get_letter_type c) t
    else flips last t

/-- Number of adjacent pairs vowel, non-vowel in a word, by recursion on the
word. -/
def vc_pairs : Word → Nat
  | a :: b :: t => (if is_vowel a && !is_vowel b then 1 else 0) + vc_pairs (b :: t)
  | _ => 0

/-- Number of positions `i` with `0 <= i < len(s) - 1` such that `s[i]` is a
vowel and `s[i+1]` is not. -/
def vc_positions (s : Word) : Nat :=
  (List.range (s.length - 1)).countP fun i =>
    match s[i]?, s[i + 1]? with
    | some a, some b => is_vowel a && !is_vowel b
    | _, _ => false

/-- The string `calculable` of `calculate_m`: the word without its leading
consonants and its trailing vowels. -/
def calculable_part (s : Word) : Word :=
  (s.dropWhile is_consonant).rdropWhile is_vowel

/-- Value of `ends_with_double_consonant`, read off the reversed word. -/
def double_consonant_end (s : Word) : Bool :=
  match s.reverse with
  | a :: b :: _ => is_consonant a && a == b
  | _ => false

/-- Value of `ends_with_cvc`, read off the reversed word. -/
def cvc_end (s : Word) : Bool :=
  match s.reverse with
  | c3 :: c2 :: c1 :: _ => is_consonant c3 && is_vowel c2 && is_consonant c1
  | _ => false

/-- First-match scan over an ordered rule table: the result is
`p ++ replacement` for the first pair `(suffix, replacement)` of the table such
that `w = p ++ suffix`, `calculate_m(p) > k` and the extra condition `ok` holds
of the suffix and `p`; it is `w` if no pair qualifies. -/
def first_match (k : Int) (ok : Word → Word → Bool) :
    List (String × String) → Word → Option Word
  | [], w => some w
  | (suffix, replacement) :: rest, w =>
    if suffix.toList <:+ w then
      let p := w.take (w.length - suffix.toList.length)
      (calculate_m p).bind fun m =>
      if m > k ∧ ok suffix.toList p = true then some (p ++ replacement.toList)
      else first_match k ok rest w
    else first_match k ok rest w

/-- No extra condition on a rule (steps 2 and 3). -/
def no_extra : Word → Word → Bool := fun _ _ => true

/-- Extra condition of step 4: when the suffix is "ion", the stem `p` ends in
"s" or "t". -/
def ion_after_s_or_t : Word → Word → Bool := fun suffix p =>
  suffix != "ion".toList ||
    (decide ("s".toList <:+ p) || decide ("t".toList <:+ p))

/-- Rule table of step 2, in the order of the specification. -/
def step_2_table : List (String × String) :=
  [("ational", "ate"), ("tional", "tion"), ("enci", "ence"), ("anci", "ance"),
   ("izer", "ize"), ("abli", "able"), ("alli", "al"), ("entli", "ent"),
   ("eli", "e"), ("ousli", "ous"), ("ization", "ize"), ("ation", "ate"),
   ("ator", "ate"), ("alism", "al"), ("iveness", "ive"), ("fulness", "ful"),
   ("ousness", "ous"), ("aliti", "al"), ("iviti", "ive"), ("biliti", "ble")]

/-- Rule table of step 3, in the order of the specification. -/
def step_3_table : List (String × String) :=
  [("icate", "ic"), ("ative", ""), ("alize", "al"), ("iciti", "ic"),
   ("ical", "ic"), ("ful", ""), ("ness", "")]

/-- Suffixes of step 4, in the order of the specification, each replaced by
the empty string. -/
def step_4_table : List (String × String) :=
  [("al", ""), ("ance", ""), ("ence", ""), ("er", ""), ("ic", ""),
   ("able", ""), ("ible", ""), ("ant", ""), ("ement", ""), ("ment", ""),
   ("ent", ""), ("ion", ""), ("ou", ""), ("ism", ""), ("ate", ""),
   ("iti", ""), ("ous", ""), ("ive", ""), ("ize", "")]

/-- Sub-step 5a as the specification words it: `p` if `w = p ++ "e"` and either
`calculate_m(p) > 1`, or `calculate_m(p) = 1` and `ends_with_cvc(p)` is false;
`w` otherwise. -/
def step_5a_ref (w : Word) : Option Word :=
  if "e".toList <:+ w then
    let p := w.take (w.length - 1)
    (calculate_m p).bind fun m =>
    (ends_with_cvc p).bind fun cvc =>
    if m > 1 ∨ (m = 1 ∧ cvc = false) then some p else some w
  else some w

/-- Sub-step 5b as the specification words it: `r` without its final "l" if
`calculate_m(r) > 1` and `r` ends in "ll"; `r` otherwise. -/
def step_5b_ref (r : Word) : Option Word :=
  (calculate_m r).bind fun m =>
  if m > 1 ∧ "ll".toList <:+ r then some (r.take (r.length - 1)) else some r

/-- The cleanup cascade of step 1b as the specification words it, built from
the program's `ends_with_double_consonant`, `calculate_m` and `ends_with_cvc`:
`r ++ "e"` if `r` ends in "at", "bl" or "iz"; else `r` without its last
character if `r` ends in a double consonant other than "l", "s", "z"; else
`r ++ "e"` if `calculate_m(r) = 1` and `ends_with_cvc(r)`; else `r`. -/
def step_1b_cleanup_ref (r : Word) : Option Word :=
  if "at".toList <:+ r ∨ "bl".toList <:+ r ∨ "iz".toList <:+ r then
    some (r ++ "e".toList)
  else
    (ends_with_double_consonant r).bind fun dc =>
    if dc = true ∧ ¬ ("l".toList <:+ r ∨ "s".toList <:+ r ∨ "z".toList <:+ r) then
      some (r.take (r.length - 1))
    else
      (calculate_m r).bind fun m =>
      (ends_with_cvc r).bind fun cvc =>
      if m = 1 ∧ cvc = true then some (r ++ "e".toList) else some r

/-- Source `new_ending` with its stated precondition checked: `none` when
`suffix_length` is negative or exceeds the length of `candidate`. -/
def new_ending_checked (candidate : Word) (suffix_length : Int)
    (replacement : Word) : Option Word :=
  if 0 ≤ suffix_length ∧ suffix_length ≤ (candidate.length : Int) then
    new_ending candidate suffix_length replacement
  else none

/-! ## The measured steps with the measure function as a parameter

To speak of the strings on which a step evaluates `calculate_m`, the five steps
that call it are written once more with every call `calculate_m(x)` replaced by
a call `cm x` of a parameter; nothing else changes.  With `cm = calculate_m`
they are the source steps.  Run with a measure function that fails on the empty
string, a step fails exactly when it evaluates the measure of an empty
string. -/

/-- The operand `cm(maybe_remove_suffix(base, suffix)) > k`: `m_gt` with `cm` for
`calculate_m`. -/
def m_gt_with (cm : Word → Option Int) (k : Int) (base suffix : Word) : Cond :=
  test fun _ =>
    (maybe_remove_suffix base suffix).bind fun stem =>
    (cm stem).map fun m => decide (m > k)

/-- The operand `m_rule` with `cm` for `calculate_m`. -/
def m_rule_with (cm : Word → Option Int) (k : Int) (base : Word)
    (suffix replacement : String) : Cond :=
  and_then (m_gt_with cm k base suffix.toList)
    (apply_rule base suffix.toList replacement.toList)

/-- Source `step_1b` with `cm` for `calculate_m`. -/
def step_1b_with (cm : Word → Option Int) (base : Word) : Option Word :=
  let result := base
  (ends_with base "eed".toList).bind fun is_eed =>
  if is_eed then
    (m_gt_with cm 0 base "eed".toList result).bind fun p =>
    if p.1 then
      (apply_rule base "eed".toList "ee".toList result).map fun q => q.2
    else some result
  else
    (or_else
      (and_then
        (test fun _ =>
          (maybe_remove_suffix base "ed".toList).bind contains_vowel)
        (apply_rule base "ed".toList "".toList))
      (and_then
        (test fun _ =>
          (maybe_remove_suffix base "ing".toList).bind contains_vowel)
        (apply_rule base "ing".toList "".toList)) result).bind fun p =>
    let s1b1_or_2 := p.1
    let result := p.2
    if s1b1_or_2 then
      (or_chain [
        fun result => apply_rule result "at".toList "ate".toList result,
        fun result => apply_rule result "bl".toList "ble".toList result,
        fun result => apply_rule result "iz".toList "ize".toList result,
        and_then
          (and_then (test ends_with_double_consonant)
            (not_ (or_chain [last_is 'l', last_is 's', last_is 'z'])))
          drop_last_letter,
        and_then
          (and_then
            (test fun result => (cm result).map fun m => decide (m = 1))
            (test ends_with_cvc))
          append_e] result).map fun q => q.2
    else some result

/-- Source `step_2` with `cm` for `calculate_m`. -/
def step_2_with (cm : Word → Option Int) (base : Word) : Option Word :=
  let result := base
  (or_chain [
    m_rule_with cm 0 base "ational" "ate",
    m_rule_with cm 0 base "tional" "tion",
    m_rule_with cm 0 base "enci" "ence",
    m_rule_with cm 0 base "anci" "ance",
    m_rule_with cm 0 base "izer" "ize",
    m_rule_with cm 0 base "abli" "able",
    m_rule_with cm 0 base "alli" "al",
    m_rule_with cm 0 base "entli" "ent",
    m_rule_with cm 0 base "eli" "e",
    m_rule_with cm 0 base "ousli" "ous",
    m_rule_with cm 0 base "ization" "ize",
    m_rule_with cm 0 base "ation" "ate",
    m_rule_with cm 0 base "ator" "ate",
    m_rule_with cm 0 base "alism" "al",
    m_rule_with cm 0 base "iveness" "ive",
    m_rule_with cm 0 base "fulness" "ful",
    m_rule_with cm 0 base "ousness" "ous",
    m_rule_with cm 0 base "aliti" "al",
    m_rule_with cm 0 base "iviti" "ive",
    m_rule_with cm 0 base "biliti" "ble"] result).map fun p => p.2

/-- Source `step_3` with `cm` for `calculate_m`. -/
def step_3_with (cm : Word → Option Int) (base : Word) : Option Word :=
  let result := base
  (or_chain [
    m_rule_with cm 0 base "icate" "ic",
    m_rule_with cm 0 base "ative" "",
    m_rule_with cm 0 base "alize" "al",
    m_rule_with cm 0 base "iciti" "ic",
    m_rule_with cm 0 base "ical" "ic",
    m_rule_with cm 0 base "ful" "",
    m_rule_with cm 0 base "ness" ""] result).map fun p => p.2

/-- Source `step_4` with `cm` for `calculate_m`. -/
def step_4_with (cm : Word → Option Int) (base : Word) : Option Word :=
  let result := base
  (or_chain [
    m_rule_with cm 1 base "al" "",
    m_rule_with cm 1 base "ance" "",
    m_rule_with cm 1 base "ence" "",
    m_rule_with cm 1 base "er" "",
    m_rule_with cm 1 base "ic" "",
    m_rule_with cm 1 base "able" "",
    m_rule_with cm 1 base "ible" "",
    m_rule_with cm 1 base "ant" "",
    m_rule_with cm 1 base "ement" "",
    m_rule_with cm 1 base "ment" "",
    m_rule_with cm 1 base "ent" "",
    and_then
      (and_then (m_gt_with cm 1 base "ion".toList)
        (or_else (ion_stem_ends_with base "s") (ion_stem_ends_with base "t")))
      (apply_rule base "ion".toList "".toList),
    m_rule_with cm 1 base "ou" "",
    m_rule_with cm 1 base "ism" "",
    m_rule_with cm 1 base "ate" "",
    m_rule_with cm 1 base "iti" "",
    m_rule_with cm 1 base "ous" "",
    m_rule_with cm 1 base "ive" "",
    m_rule_with cm 1 base "ize" ""] result).map fun p => p.2

/-- Source `step_5` with `cm` for `calculate_m`. -/
def step_5_with (cm : Word → Option Int) (base : Word) : Option Word :=
  let result := base
  (or_else
    (m_rule_with cm 1 base "e" "")
    (and_then
      (and_then
        (test fun _ =>
          (maybe_remove_suffix base "e".toList).bind fun stem =>
          (cm stem).map fun m => decide (m = 1))
        (not_ (test fun _ =>
          (maybe_remove_suffix base "e".toList).bind ends_with_cvc)))
      (apply_rule base "e".toList "".toList)) result).bind fun did_step_5a =>
  let result := did_step_5a.2
  (and_then
    (and_then
      (and_then
        (test fun result => (cm result).map fun m => decide (m > 1))
        (test ends_with_double_consonant))
      (last_is 'l'))
    (fun result => apply_rule result "l".toList "".toList result) result).map
    fun did_step_5b => did_step_5b.2

/-- Function `calculate_m` made to fail on the empty string: `none` when the
argument is empty, the value of `calculate_m` otherwise. -/
def calculate_m_nonempty (str : Word) : Option Int :=
  if str = [] then none else calculate_m str

/-! ## String members and `ends_with` -/

theorem str_at_natCast (s : Word) (n : Nat) : str_at s (n : Int) = s[n]? := by
  unfold str_at
  by_cases h : n < s.length
  · simp [h]
  · simp [h]
    omega

theorem str_at_back (s : Word) (i : Nat) (h : i < s.length) :
    str_at s ((s.length : Int) - 1 - i) = s.reverse[i]? := by
  have e : ((s.length : Int) - 1 - i) = ((s.length - 1 - i : Nat) : Int) := by omega
  rw [e, str_at_natCast, List.getElem?_reverse h]

theorem ends_with_loop_eq (candidate suffix : Word)
    (hlen : suffix.length ≤ candidate.length) :
    ∀ (fuel i : Nat), i ≤ suffix.length → suffix.length - i < fuel →
      ends_with_loop candidate suffix fuel (i : Int) =
        some ((suffix.reverse.drop i).isPrefixOf (candidate.reverse.drop i)) := by
  intro fuel
  induction fuel with
  | zero => intro i _ h; omega
  | succ fuel ih =>
    intro i hi hf
    unfold ends_with_loop
    by_cases hlt : i < suffix.length
    · have hs : i < suffix.reverse.length := by simpa using hlt
      have hc : i < candidate.reverse.length := by simp; omega
      have hlt2 : (i : Int) < (suffix.length : Int) := by omega
      rw [if_pos hlt2, str_at_back suffix i hlt, str_at_back candidate i (by omega),
        List.getElem?_eq_getElem hs, List.getElem?_eq_getElem hc,
        List.drop_eq_getElem_cons hs, List.drop_eq_getElem_cons hc]
      have ih2 := ih (i + 1) (by omega) (by omega)
      simp only [Nat.cast_add, Nat.cast_one] at ih2
      generalize suffix.reverse[i] = x
      generalize candidate.reverse[i] = y
      by_cases hne : x = y
      · simp [hne, ih2, List.isPrefixOf]
      · simp [hne, List.isPrefixOf]
    · have hi2 : i = suffix.length := by omega
      have hlt2 : ¬ (i : Int) < (suffix.length : Int) := by omega
      rw [if_neg hlt2]
      subst hi2
      rw [List.drop_eq_nil_of_le (by simp)]
      simp [List.isPrefixOf]

theorem ends_with_eq (candidate suffix : Word) :
    ends_with candidate suffix = some (decide (suffix <:+ candidate)) := by
  unfold ends_with
  by_cases h : candidate.length < suffix.length
  · rw [if_pos h]
    have : ¬ suffix <:+ candidate := fun hs => by
      have := hs.length_le
      omega
    simp [this]
  · rw [if_neg h]
    have := ends_with_loop_eq candidate suffix (by omega) (suffix.length + 1) 0
      (by omega) (by omega)
    simp only [Nat.cast_zero, List.drop_zero] at this
    rw [this]
    congr 1
    rw [Bool.eq_iff_iff]
    simp

theorem str_at_from_end (s : Word) (k : Nat) (h1 : 1 ≤ k) (h2 : k ≤ s.length) :
    str_at s ((s.length : Int) - (k : Int)) = s.reverse[k - 1]? := by
  have e : ((s.length : Int) - (k : Int)) = (s.length : Int) - 1 - ((k - 1 : Nat) : Int) := by
    omega
  rw [e, str_at_back s (k - 1) (by omega)]

theorem ends_with_cvc_append (p : Word) (c1 v c2 : Char) :
    ends_with_cvc (p ++ [c1, v, c2]) =
      some (is_consonant c1 && is_vowel v && is_consonant c2) := by
  unfold ends_with_cvc
  have hlen : ¬ (p ++ [c1, v, c2]).length < 3 := by simp
  rw [if_neg hlen]
  have h1 := str_at_from_end (p ++ [c1, v, c2]) 1 (by omega) (by simp)
  have h2 := str_at_from_end (p ++ [c1, v, c2]) 2 (by omega) (by simp)
  have h3 := str_at_from_end (p ++ [c1, v, c2]) 3 (by omega) (by simp)
  simp only [Nat.cast_one, Nat.cast_ofNat] at h1 h2 h3
  rw [h1, h2, h3]
  simp only [List.reverse_append, List.reverse_cons, List.reverse_nil, List.nil_append,
    List.cons_append, List.append_assoc]
  cases hc2 : is_consonant c2 <;> cases hv : is_vowel v <;> simp [hc2, hv]

theorem ends_with_cvc_short (s : Word) (h : s.length < 3) :
    ends_with_cvc s = some false := by
  unfold ends_with_cvc
  rw [if_pos h]

/-! ## Values of the remaining primitives -/

theorem str_at_from_end_total (s : Word) (k : Nat) (h1 : 1 ≤ k) :
    str_at s ((s.length : Int) - (k : Int)) = s.reverse[k - 1]? := by
  by_cases h2 : k ≤ s.length
  · exact str_at_from_end s k h1 h2
  · unfold str_at
    rw [if_neg (by omega), List.getElem?_eq_none (by simp; omega)]

theorem str_at_last (s : Word) :
    str_at s ((s.length : Int) - 1) = s.reverse[0]? := by
  simpa using str_at_from_end_total s 1 (by omega)

theorem str_at_last2 (s : Word) :
    str_at s ((s.length : Int) - 2) = s.reverse[1]? := by
  simpa using str_at_from_end_total s 2 (by omega)

theorem str_at_last3 (s : Word) :
    str_at s ((s.length : Int) - 3) = s.reverse[2]? := by
  simpa using str_at_from_end_total s 3 (by omega)

theorem ends_with_double_consonant_eq (s : Word) :
    ends_with_double_consonant s = some (double_consonant_end s) := by
  unfold ends_with_double_consonant double_consonant_end
  rw [str_at_last, str_at_last2, ← List.length_reverse s]
  generalize s.reverse = r
  match r with
  | [] => simp
  | [a] => simp
  | a :: b :: t =>
    cases ha : is_consonant a <;> simp [ha]

theorem ends_with_cvc_eq (s : Word) :
    ends_with_cvc s = some (cvc_end s) := by
  unfold ends_with_cvc cvc_end
  rw [str_at_last, str_at_last2, str_at_last3, ← List.length_reverse s]
  generalize s.reverse = r
  match r with
  | [] => simp
  | [a] => simp
  | [a, b] => simp
  | a :: b :: c :: t =>
    cases ha : is_consonant a <;> cases hb : is_vowel b <;> simp [ha, hb]

theorem contains_vowel_loop_eq (str : Word) :
    ∀ (fuel i : Nat), i ≤ str.length → str.length - i < fuel →
      contains_vowel_loop str fuel (i : Int) = some ((str.drop i).any is_vowel) := by
  intro fuel
  induction fuel with
  | zero => intro i _ h; omega
  | succ fuel ih =>
    intro i hi hf
    unfold contains_vowel_loop
    by_cases hlt : i < str.length
    · have hlt2 : (i : Int) < (str.length : Int) := by omega
      rw [if_pos hlt2, str_at_natCast, List.getElem?_eq_getElem hlt,
        List.drop_eq_getElem_cons hlt]
      have ih2 := ih (i + 1) (by omega) (by omega)
      simp only [Nat.cast_add, Nat.cast_one] at ih2
      generalize str[i] = x
      cases hx : is_vowel x <;> simp [hx, ih2]
    · have hlt2 : ¬ (i : Int) < (str.length : Int) := by omega
      rw [if_neg hlt2, List.drop_eq_nil_of_le (by omega)]
      simp

theorem contains_vowel_eq (str : Word) :
    contains_vowel str = some (str.any is_vowel) := by
  unfold contains_vowel
  have := contains_vowel_loop_eq str (str.length + 1) 0 (by omega) (by omega)
  simpa using this

theorem is_vowel_iff (c : Char) :
    is_vowel c = true ↔
      c ∈ ['a', 'e', 'i', 'o', 'u', 'A', 'E', 'I', 'O', 'U'] := by
  by_cases h : 65 ≤ c.toNat ∧ c.toNat ≤ 90
  · obtain ⟨n, hn⟩ : ∃ n, c.toNat = n := ⟨_, rfl⟩
    have hc : c = Char.ofNat n := by rw [← hn, Char.ofNat_toNat]
    rw [hn] at h
    obtain ⟨h1, h2⟩ := h
    clear hn
    subst hc
    interval_cases n <;> decide
  · unfold is_vowel tolower
    rw [if_neg h]
    simp only [List.mem_cons, List.mem_singleton, beq_iff_eq, Bool.or_eq_true,
      List.not_mem_nil, or_false]
    constructor
    · rintro ((((h1 | h1) | h1) | h1) | h1) <;> simp [h1]
    · rintro (h1 | h1 | h1 | h1 | h1 | h1 | h1 | h1 | h1 | h1) <;>
        first
        | (simp [h1]; done)
        | (subst h1; exact absurd (by decide) h)

/-! ## The counting primitives and `calculate_m` -/

theorem count_consonants_at_front_loop_eq (str : Word) :
    ∀ (fuel i : Nat), i ≤ str.length → str.length - i < fuel →
      count_consonants_at_front_loop str fuel (i : Int) =
        some ((i + ((str.drop i).takeWhile is_consonant).length : Nat) : Int) := by
  intro fuel
  induction fuel with
  | zero => intro i _ h; omega
  | succ fuel ih =>
    intro i hi hf
    unfold count_consonants_at_front_loop
    by_cases hlt : i < str.length
    · have hlt2 : (i : Int) < (str.length : Int) := by omega
      rw [if_pos hlt2, str_at_natCast, List.getElem?_eq_getElem hlt,
        List.drop_eq_getElem_cons hlt]
      have ih2 := ih (i + 1) (by omega) (by omega)
      simp only [Nat.cast_add, Nat.cast_one] at ih2
      generalize str[i] = x
      cases hx : is_consonant x
      · simp [hx, List.takeWhile_cons]
      · simp only [Option.some_bind, hx, if_true, ih2, List.takeWhile_cons,
          List.length_cons, Nat.cast_add, Nat.cast_one]
        congr 1
        omega
    · have hlt2 : ¬ (i : Int) < (str.length : Int) := by omega
      rw [if_neg hlt2, List.drop_eq_nil_of_le (by omega)]
      simp

theorem count_consonants_at_front_eq (str : Word) :
    count_consonants_at_front str =
      some (((str.takeWhile is_consonant).length : Nat) : Int) := by
  unfold count_consonants_at_front
  have := count_consonants_at_front_loop_eq str (str.length + 1) 0 (by omega) (by omega)
  simpa using this

theorem count_vowels_at_back_loop_eq (str : Word) :
    ∀ (fuel i : Nat), i ≤ str.length → str.length - i < fuel →
      count_vowels_at_back_loop str ((str.length : Int) - 1) fuel (i : Int) =
        some ((i + ((str.reverse.drop i).takeWhile is_vowel).length : Nat) : Int) := by
  intro fuel
  induction fuel with
  | zero => intro i _ h; omega
  | succ fuel ih =>
    intro i hi hf
    unfold count_vowels_at_back_loop
    by_cases hlt : i < str.length
    · have hlt2 : (str.length : Int) - 1 - (i : Int) ≥ 0 := by omega
      have hr : i < str.reverse.length := by simpa using hlt
      rw [if_pos hlt2, str_at_back str i hlt, List.getElem?_eq_getElem hr,
        List.drop_eq_getElem_cons hr]
      have ih2 := ih (i + 1) (by omega) (by omega)
      simp only [Nat.cast_add, Nat.cast_one] at ih2
      generalize str.reverse[i] = x
      cases hx : is_vowel x
      · simp [hx, List.takeWhile_cons]
      · simp only [Option.some_bind, hx, if_true, ih2, List.takeWhile_cons,
          List.length_cons, Nat.cast_add, Nat.cast_one]
        congr 1
        omega
    · have hlt2 : ¬ (str.length : Int) - 1 - (i : Int) ≥ 0 := by omega
      rw [if_neg hlt2, List.drop_eq_nil_of_le (by simp; omega)]
      simp

theorem count_vowels_at_back_eq (str : Word) :
    count_vowels_at_back str =
      some (((str.reverse.takeWhile is_vowel).length : Nat) : Int) := by
  unfold count_vowels_at_back
  have := count_vowels_at_back_loop_eq str (str.length + 1) 0 (by omega) (by omega)
  simpa using this

theorem takeWhile_append_of_forall_not (p : Char → Bool) (l1 l2 : List Char)
    (h : ∀ x ∈ l2, p x = false) :
    (l1 ++ l2).takeWhile p = l1.takeWhile p := by
  induction l1 with
  | nil =>
    cases l2 with
    | nil => rfl
    | cons a t => simp [List.takeWhile_cons, h a (by simp)]
  | cons a t ih => simp [List.takeWhile_cons, ih]

theorem back_count_eq (s : Word) :
    (s.reverse.takeWhile is_vowel) =
      ((s.dropWhile is_consonant).reverse.takeWhile is_vowel) := by
  conv_lhs => rw [← List.takeWhile_append_dropWhile is_consonant s]
  rw [List.reverse_append]
  apply takeWhile_append_of_forall_not
  intro x hx
  have hx2 := List.mem_takeWhile_imp (List.mem_reverse.1 hx)
  simpa [is_consonant] using hx2

theorem front_add_back_le (s : Word) :
    (s.takeWhile is_consonant).length + (s.reverse.takeWhile is_vowel).length ≤
      s.length := by
  rw [back_count_eq]
  have h1 : ((s.dropWhile is_consonant).reverse.takeWhile is_vowel).length ≤
      (s.dropWhile is_consonant).length := by
    have := (List.takeWhile_prefix is_vowel
      (l := (s.dropWhile is_consonant).reverse)).length_le
    simpa using this
  have h2 : (s.takeWhile is_consonant).length + (s.dropWhile is_consonant).length =
      s.length := by
    rw [← List.length_append, List.takeWhile_append_dropWhile]
  omega

theorem drop_length_takeWhile (p : Char → Bool) (l : List Char) :
    l.drop (l.takeWhile p).length = l.dropWhile p := by
  have h := List.drop_left (l.takeWhile p) (l.dropWhile p)
  rwa [List.takeWhile_append_dropWhile] at h

theorem calculable_eq (s : Word) :
    (s.drop (s.takeWhile is_consonant).length).take
        (s.length - (s.reverse.takeWhile is_vowel).length -
          (s.takeWhile is_consonant).length) =
      calculable_part s := by
  rw [drop_length_takeWhile, back_count_eq]
  have h2 : (s.takeWhile is_consonant).length + (s.dropWhile is_consonant).length =
      s.length := by
    rw [← List.length_append, List.takeWhile_append_dropWhile]
  unfold calculable_part List.rdropWhile
  generalize s.dropWhile is_consonant = d at *
  rw [← drop_length_takeWhile is_vowel d.reverse, List.reverse_drop]
  simp only [List.reverse_reverse, List.length_reverse]
  congr 1
  omega

theorem calculate_m_loop_eq (w : Word) :
    ∀ (fuel i : Nat) (last : LetterType) (m : Nat), i ≤ w.length →
      w.length - i < fuel →
      calculate_m_loop w fuel (i : Int) last (m : Int) =
        some ((m + flips last (w.drop i) : Nat) : Int) := by
  intro fuel
  induction fuel with
  | zero => intro i _ _ _ h; omega
  | succ fuel ih =>
    intro i last m hi hf
    unfold calculate_m_loop
    by_cases hlt : i < w.length
    · have hlt2 : (i : Int) < (w.length : Int) := by omega
      rw [if_pos hlt2, str_at_natCast, List.getElem?_eq_getElem hlt,
        List.drop_eq_getElem_cons hlt]
      generalize w[i] = x
      simp only [Option.some_bind, flips]
      by_cases hx : last ≠ get_letter_type x
      · rw [if_pos hx, if_pos hx]
        have ih2 := ih (i + 1) (get_letter_type x) (m + 1) (by omega) (by omega)
        simp only [Nat.cast_add, Nat.cast_one] at ih2
        rw [ih2]
        congr 1
        push_cast
        omega
      · rw [if_neg hx, if_neg hx]
        have ih2 := ih (i + 1) last m (by omega) (by omega)
        simp only [Nat.cast_add, Nat.cast_one] at ih2
        rw [ih2]
        simp
    · have hlt2 : ¬ (i : Int) < (w.length : Int) := by omega
      rw [if_neg hlt2, List.drop_eq_nil_of_le (by omega)]
      simp [flips]

theorem calculate_m_eq_flips (s : Word) :
    calculate_m s =
      some (if calculable_part s = [] then 0
        else (((flips LetterType.vowel (calculable_part s).tail + 1) / 2 : Nat) : Int)) := by
  unfold calculate_m
  rw [count_consonants_at_front_eq, count_vowels_at_back_eq]
  have hle := front_add_back_le s
  simp only [Option.some_bind]
  have hgt : ¬ (((s.takeWhile is_consonant).length : Nat) : Int) >
      (s.length : Int) - (((s.reverse.takeWhile is_vowel).length : Nat) : Int) := by
    omega
  rw [if_neg hgt]
  have e : (s.length : Int) - (((s.reverse.takeWhile is_vowel).length : Nat) : Int) -
      (((s.takeWhile is_consonant).length : Nat) : Int) =
      ((s.length - (s.reverse.takeWhile is_vowel).length -
          (s.takeWhile is_consonant).length : Nat) : Int) := by
    omega
  have hb : (s.takeWhile is_consonant).length ≤ s.length := by omega
  rw [e]
  have hsub : substr s (((s.takeWhile is_consonant).length : Nat) : Int)
      ((s.length - (s.reverse.takeWhile is_vowel).length -
          (s.takeWhile is_consonant).length : Nat) : Int) =
      some (calculable_part s) := by
    unfold substr
    rw [if_neg (by omega), if_neg (by omega)]
    simp only [Int.toNat_ofNat]
    rw [calculable_eq]
  rw [hsub]
  simp only [Option.some_bind]
  by_cases hnil : calculable_part s = []
  · simp [hnil]
  · have hlen : (calculable_part s).length ≠ 0 := by
      simpa using hnil
    rw [if_neg hlen, if_neg hnil]
    have := calculate_m_loop_eq (calculable_part s) ((calculable_part s).length + 1) 1
      LetterType.vowel 0 (by omega) (by omega)
    simp only [Nat.cast_one, Nat.cast_zero, Nat.zero_add] at this
    rw [this]
    simp only [Option.map_some', List.drop_one]
    congr 1

theorem vc_pairs_cons_consonant (c : Char) (t : Word) (hc : is_vowel c = false) :
    vc_pairs (c :: t) = vc_pairs t := by
  cases t with
  | nil => simp [vc_pairs]
  | cons b t => simp [vc_pairs, hc]

theorem vc_pairs_dropWhile (s : Word) :
    vc_pairs (s.dropWhile is_consonant) = vc_pairs s := by
  induction s with
  | nil => rfl
  | cons a t ih =>
    cases ha : is_vowel a
    · rw [List.dropWhile_cons, is_consonant, ha, vc_pairs_cons_consonant a t ha]
      simpa using ih
    · rw [List.dropWhile_cons, is_consonant, ha]
      simp

theorem vc_pairs_concat_vowel (x : Char) (hx : is_vowel x = true) :
    ∀ l : Word, vc_pairs (l ++ [x]) = vc_pairs l
  | [] => by simp [vc_pairs]
  | [a] => by simp [vc_pairs, hx]
  | a :: b :: t => by
    have ih := vc_pairs_concat_vowel x hx (b :: t)
    simp only [List.cons_append] at ih ⊢
    simp only [vc_pairs]
    rw [ih]

theorem vc_pairs_rdropWhile (d : Word) :
    vc_pairs (d.rdropWhile is_vowel) = vc_pairs d := by
  induction d using List.reverseRecOn with
  | nil => simp
  | append_singleton l x ih =>
    cases hx : is_vowel x
    · rw [List.rdropWhile_concat_neg _ _ _ (by simp [hx])]
    · rw [List.rdropWhile_concat_pos _ _ _ hx, ih, vc_pairs_concat_vowel x hx]

theorem vc_pairs_calculable (s : Word) :
    vc_pairs (calculable_part s) = vc_pairs s := by
  unfold calculable_part
  rw [vc_pairs_rdropWhile, vc_pairs_dropWhile]

theorem two_vc_pairs_eq_flips :
    ∀ (t : Word) (x : Char),
      2 * vc_pairs (x :: t) + (if is_vowel x then 0 else 1) =
        flips (get_letter_type x) t + (if is_vowel (t.getLastD x) then 0 else 1)
  | [], x => by simp [vc_pairs, flips]
  | y :: t, x => by
    have ih := two_vc_pairs_eq_flips t y
    simp only [vc_pairs, flips, List.getLastD_cons, get_letter_type] at ih ⊢
    cases hx : is_vowel x <;> cases hy : is_vowel y <;>
      simp [hx, hy] at ih ⊢ <;> omega

theorem dropWhile_head_not (p : Char → Bool) (x : Char) (t : Word) :
    ∀ l : Word, l.dropWhile p = x :: t → p x = false
  | [] => by simp
  | a :: l => by
    cases ha : p a
    · rw [List.dropWhile_cons, ha]
      simp only [Bool.false_eq_true, if_false, List.cons.injEq, and_imp]
      rintro rfl _
      exact ha
    · rw [List.dropWhile_cons, ha]
      simpa using dropWhile_head_not p x t l

theorem calculable_head_vowel (s : Word) (x : Char) (t : Word)
    (h : calculable_part s = x :: t) : is_vowel x = true := by
  have hp : calculable_part s <+: s.dropWhile is_consonant := List.rdropWhile_prefix _ _
  rw [h] at hp
  obtain ⟨r, hr⟩ := hp
  have := dropWhile_head_not is_consonant x (t ++ r) s (by simpa using hr.symm)
  simpa [is_consonant] using this

theorem calculable_last_consonant (s : Word) (x : Char) (t : Word)
    (h : calculable_part s = x :: t) : is_vowel (t.getLastD x) = false := by
  have hne : (s.dropWhile is_consonant).rdropWhile is_vowel ≠ [] := by
    intro h0
    unfold calculable_part at h
    rw [h0] at h
    cases h
  have := List.rdropWhile_last_not is_vowel (s.dropWhile is_consonant) hne
  have e : ((s.dropWhile is_consonant).rdropWhile is_vowel).getLast hne = t.getLastD x := by
    have h2 : (s.dropWhile is_consonant).rdropWhile is_vowel = x :: t := h
    simp only [h2]
    rw [List.getLast_eq_getLastD]
  rw [e] at this
  simpa using this

theorem calculate_m_eq_vc_pairs (s : Word) :
    calculate_m s = some ((vc_pairs s : Nat) : Int) := by
  rw [calculate_m_eq_flips, ← vc_pairs_calculable s]
  congr 1
  cases h : calculable_part s with
  | nil => simp [vc_pairs]
  | cons x t =>
    have hx := calculable_head_vowel s x t h
    have hl := calculable_last_consonant s x t h
    have hf := two_vc_pairs_eq_flips t x
    simp only [hx, hl, get_letter_type, if_true, List.tail_cons] at hf ⊢
    simp only [Bool.false_eq_true, if_false] at hf
    rw [if_neg (by simp)]
    congr 1
    omega

theorem vc_positions_cons (a b : Char) (t : Word) :
    vc_positions (a :: b :: t) =
      (if is_vowel a && !is_vowel b then 1 else 0) + vc_positions (b :: t) := by
  unfold vc_positions
  simp only [List.length_cons, Nat.add_sub_cancel]
  rw [List.range_succ_eq_map, List.countP_cons, List.countP_map]
  simp only [List.getElem?_cons_zero, List.getElem?_cons_succ, zero_add]
  rw [Nat.add_comm]
  congr 1
  apply congrArg (fun f => List.countP f (List.range t.length))
  funext i
  simp only [Function.comp, Nat.succ_eq_add_one, List.getElem?_cons_succ]

theorem vc_positions_eq_vc_pairs : ∀ s : Word, vc_positions s = vc_pairs s
  | [] => by simp [vc_positions, vc_pairs]
  | [a] => by simp [vc_positions, vc_pairs]
  | a :: b :: t => by
    rw [vc_positions_cons, vc_positions_eq_vc_pairs (b :: t)]
    simp [vc_pairs]

/-- Claim C1: `calculate_m(s)` returns the number of positions `i` with
`0 <= i < len(s) - 1` at which `s[i]` is a vowel and `s[i+1]` is not, that is
the number `m` of vowel-run/consonant-run pairs of `s`; it is 0 on "" and
"tr", 1 on "trouble" and 2 on "troubles". -/
theorem calculate_m_spec :
    (∀ s : Word, calculate_m s = some ((vc_positions s : Nat) : Int)) ∧
    calculate_m "".toList = some 0 ∧
    calculate_m "tr".toList = some 0 ∧
    calculate_m "trouble".toList = some 1 ∧
    calculate_m "troubles".toList = some 2 := by
  refine ⟨fun s => ?_, by decide, by decide, by decide, by decide⟩
  rw [calculate_m_eq_vc_pairs, vc_positions_eq_vc_pairs]

/-- Claim C2: on every string, `count_consonants_at_front` and
`count_vowels_at_back` return, the first result is at most `len(s)` minus the
second, so the `begin > end` branch of `calculate_m` with its `assert(false)`
is not taken, and `calculate_m` returns a value. -/
theorem calculate_m_begin_le_end (s : Word) :
    ∃ b k : Int, count_consonants_at_front s = some b ∧
      count_vowels_at_back s = some k ∧
      b ≤ (s.length : Int) - k ∧ ¬ b > (s.length : Int) - k ∧
      ∃ m, calculate_m s = some m := by
  have hle := front_add_back_le s
  refine ⟨_, _, count_consonants_at_front_eq s, count_vowels_at_back_eq s, ?_, ?_,
    _, calculate_m_eq_vc_pairs s⟩ <;> omega

/-! ## `new_ending`, `ends_with` and `apply_rule` -/

theorem substr_zero_natCast (s : Word) (n : Nat) :
    substr s 0 (n : Int) = some (s.take n) := by
  simp [substr]

theorem new_ending_append (p suffix replacement : Word) :
    new_ending (p ++ suffix) (suffix.length : Int) replacement =
      some (p ++ replacement) := by
  unfold new_ending
  have e : (((p ++ suffix).length : Int) - (suffix.length : Int)) = ((p.length : Nat) : Int) := by
    simp
  rw [e, substr_zero_natCast]
  simp

theorem maybe_remove_suffix_append (p suffix : Word) :
    maybe_remove_suffix (p ++ suffix) suffix = some p := by
  unfold maybe_remove_suffix
  rw [ends_with_eq]
  simp [new_ending_append]

theorem maybe_remove_suffix_of_not (candidate suffix : Word)
    (h : ¬ suffix <:+ candidate) :
    maybe_remove_suffix candidate suffix = some candidate := by
  unfold maybe_remove_suffix
  rw [ends_with_eq]
  simp [h]

theorem apply_rule_append (p suffix replacement result : Word) :
    apply_rule (p ++ suffix) suffix replacement result =
      some (true, p ++ replacement) := by
  unfold apply_rule
  rw [ends_with_eq]
  simp [new_ending_append]

theorem apply_rule_of_not (candidate suffix replacement result : Word)
    (h : ¬ suffix <:+ candidate) :
    apply_rule candidate suffix replacement result = some (false, candidate) := by
  unfold apply_rule
  rw [ends_with_eq]
  simp [h]

theorem suffix_iff_exists_append (candidate suffix : Word) :
    suffix <:+ candidate ↔ ∃ p, candidate = p ++ suffix := by
  constructor
  · rintro ⟨p, hp⟩
    exact ⟨p, hp.symm⟩
  · rintro ⟨p, hp⟩
    exact ⟨p, hp.symm⟩

theorem suffix_iff_drop (candidate suffix : Word) :
    suffix <:+ candidate ↔
      suffix.length ≤ candidate.length ∧
        candidate.drop (candidate.length - suffix.length) = suffix := by
  constructor
  · rintro ⟨p, rfl⟩
    simp
  · rintro ⟨_, h⟩
    rw [← h]
    exact List.drop_suffix _ _

/-- Claim C7: `ends_with(candidate, suffix)` always returns, and returns true
exactly when `candidate = p ++ suffix` for some `p`, that is, when `candidate`
is at least as long as `suffix` and its last `len(suffix)` characters are
`suffix`; the comparison is plain character equality, and the empty suffix
always matches. -/
theorem ends_with_spec (candidate suffix : Word) :
    (ends_with candidate suffix = some true ∨
      ends_with candidate suffix = some false) ∧
    (ends_with candidate suffix = some true ↔
      ∃ p, candidate = p ++ suffix) ∧
    (ends_with candidate suffix = some true ↔
      suffix.length ≤ candidate.length ∧
        candidate.drop (candidate.length - suffix.length) = suffix) ∧
    ends_with candidate [] = some true ∧
    ends_with "Cats".toList "S".toList = some false := by
  refine ⟨?_, ?_, ?_, ?_, ?_⟩
  · rw [ends_with_eq]
    by_cases h : suffix <:+ candidate <;> simp [h]
  · rw [ends_with_eq, ← suffix_iff_exists_append]
    simp
  · rw [ends_with_eq, ← suffix_iff_drop]
    simp
  · rw [ends_with_eq]
    simp
  · decide

/-- Claim C8: when `ends_with(x, s)` is true, `new_ending(x, len(s), s)`
returns `x` itself, so the result has the length of `x`. -/
theorem new_ending_round_trip (x s : Word) (h : ends_with x s = some true) :
    ∃ r, new_ending x (s.length : Int) s = some r ∧
      r.length = x.length ∧ r = x := by
  rw [ends_with_eq] at h
  have hs : s <:+ x := by simpa using h
  obtain ⟨p, rfl⟩ := hs
  exact ⟨p ++ s, new_ending_append p s s, rfl, rfl⟩

/-- Witness for C8 at `x = "hopping"`, `s = "ing"`. -/
theorem new_ending_round_trip_witness :
    ends_with "hopping".toList "ing".toList = some true ∧
    ∃ r, new_ending "hopping".toList ("ing".toList.length : Int) "ing".toList = some r ∧
      r.length = "hopping".toList.length ∧ r = "hopping".toList :=
  ⟨by decide, new_ending_round_trip "hopping".toList "ing".toList (by decide)⟩

/-- Claim C9: if `candidate = p ++ suffix`, `apply_rule` returns true and
leaves `p ++ replacement`, the value of
`new_ending(candidate, len(suffix), replacement)`, in `result`; otherwise it
returns false and leaves `candidate` in `result`. -/
theorem apply_rule_spec (candidate suffix replacement result : Word) :
    (∀ p, candidate = p ++ suffix →
      apply_rule candidate suffix replacement result =
        some (true, p ++ replacement) ∧
      new_ending candidate (suffix.length : Int) replacement =
        some (p ++ replacement)) ∧
    ((¬ ∃ p, candidate = p ++ suffix) →
      apply_rule candidate suffix replacement result =
        some (false, candidate)) := by
  constructor
  · rintro p rfl
    exact ⟨apply_rule_append p suffix replacement result,
      new_ending_append p suffix replacement⟩
  · intro h
    rw [← suffix_iff_exists_append] at h
    exact apply_rule_of_not candidate suffix replacement result h

/-- Witness for C9: the rule `sses -> ss` on "caresses" and the rule
`s -> ""` on "feed". -/
theorem apply_rule_spec_witness :
    (apply_rule "caresses".toList "sses".toList "ss".toList "x".toList =
        some (true, "caress".toList) ∧
      new_ending "caresses".toList ("sses".toList.length : Int) "ss".toList =
        some "caress".toList) ∧
    apply_rule "feed".toList "s".toList "".toList "x".toList =
      some (false, "feed".toList) :=
  ⟨(apply_rule_spec "caresses".toList "sses".toList "ss".toList "x".toList).1
      "care".toList (by decide),
   (apply_rule_spec "feed".toList "s".toList "".toList "x".toList).2
      (fun h => absurd
        ((suffix_iff_exists_append "feed".toList "s".toList).2 h) (by decide))⟩

/-! ## Step 1a -/

/-- Claim C10: `step_1a(w)` is `p ++ "ss"` if `w = p ++ "sses"`; else
`p ++ "i"` if `w = p ++ "ies"`; else `w` if `w` ends in "ss"; else `p` if
`w = p ++ "s"`; else `w`.  The first matching rule wins and no measure is
consulted. -/
theorem step_1a_spec (w : Word) :
    (∀ p, w = p ++ "sses".toList → step_1a w = some (p ++ "ss".toList)) ∧
    (¬ "sses".toList <:+ w →
      ∀ p, w = p ++ "ies".toList → step_1a w = some (p ++ "i".toList)) ∧
    (¬ "sses".toList <:+ w → ¬ "ies".toList <:+ w → "ss".toList <:+ w →
      step_1a w = some w) ∧
    (¬ "sses".toList <:+ w → ¬ "ies".toList <:+ w → ¬ "ss".toList <:+ w →
      ∀ p, w = p ++ "s".toList → step_1a w = some p) ∧
    (¬ "sses".toList <:+ w → ¬ "ies".toList <:+ w → ¬ "ss".toList <:+ w →
      ¬ "s".toList <:+ w → step_1a w = some w) := by
  refine ⟨?_, ?_, ?_, ?_, ?_⟩
  · rintro p rfl
    simp only [step_1a, or_chain, or_else, apply_rule_append]
    rfl
  · rintro h1 p rfl
    simp only [step_1a, or_chain, or_else, apply_rule_of_not _ _ _ _ h1,
      apply_rule_append]
    rfl
  · rintro h1 h2 ⟨p, rfl⟩
    simp only [step_1a, or_chain, or_else, apply_rule_of_not _ _ _ _ h1,
      apply_rule_of_not _ _ _ _ h2, apply_rule_append]
    rfl
  · rintro h1 h2 h3 p rfl
    simp only [step_1a, or_chain, or_else, apply_rule_of_not _ _ _ _ h1,
      apply_rule_of_not _ _ _ _ h2, apply_rule_of_not _ _ _ _ h3,
      apply_rule_append]
    simp
  · rintro h1 h2 h3 h4
    simp only [step_1a, or_chain, or_else, apply_rule_of_not _ _ _ _ h1,
      apply_rule_of_not _ _ _ _ h2, apply_rule_of_not _ _ _ _ h3,
      apply_rule_of_not _ _ _ _ h4]
    rfl

/-- Witness for C10: one word for each of the five cases. -/
theorem step_1a_spec_witness :
    step_1a "caresses".toList = some ("care".toList ++ "ss".toList) ∧
    step_1a "ponies".toList = some ("pon".toList ++ "i".toList) ∧
    step_1a "caress".toList = some "caress".toList ∧
    step_1a "cats".toList = some "cat".toList ∧
    step_1a "feed".toList = some "feed".toList :=
  ⟨(step_1a_spec "caresses".toList).1 "care".toList (by decide),
   (step_1a_spec "ponies".toList).2.1 (by decide) "pon".toList (by decide),
   (step_1a_spec "caress".toList).2.2.1 (by decide) (by decide) (by decide),
   (step_1a_spec "cats".toList).2.2.2.1 (by decide) (by decide) (by decide)
     "cat".toList (by decide),
   (step_1a_spec "feed".toList).2.2.2.2 (by decide) (by decide) (by decide)
     (by decide)⟩

/-! ## Rule operands and the first-match scan -/

theorem take_append_suffix (p s : Word) :
    (p ++ s).take ((p ++ s).length - s.length) = p := by
  simp

theorem maybe_remove_suffix_eq (w s : Word) :
    maybe_remove_suffix w s =
      some (if s <:+ w then w.take (w.length - s.length) else w) := by
  by_cases h : s <:+ w
  · obtain ⟨p, rfl⟩ := h
    rw [maybe_remove_suffix_append, if_pos ⟨p, rfl⟩, take_append_suffix]
  · rw [maybe_remove_suffix_of_not w s h, if_neg h]

theorem apply_rule_eq (w s r result : Word) :
    apply_rule w s r result =
      some (if s <:+ w then (true, w.take (w.length - s.length) ++ r)
        else (false, w)) := by
  by_cases h : s <:+ w
  · obtain ⟨p, rfl⟩ := h
    rw [apply_rule_append, if_pos ⟨p, rfl⟩, take_append_suffix]
  · rw [apply_rule_of_not w s r result h, if_neg h]

theorem guarded_rule_eval (g : Word → Option Bool) (G : Word → Bool)
    (hg : ∀ x, g x = some (G x)) (w s r : Word) :
    and_then (test fun _ => (maybe_remove_suffix w s).bind g) (apply_rule w s r) w =
      some (if s <:+ w ∧ G (w.take (w.length - s.length)) = true then
          (true, w.take (w.length - s.length) ++ r)
        else (false, w)) := by
  simp only [and_then, test, maybe_remove_suffix_eq, apply_rule_eq, Option.some_bind, hg,
    Option.map_some']
  by_cases h : s <:+ w
  · cases hG : G (w.take (w.length - s.length)) <;> simp [h, hG]
  · cases hG : G w <;> simp [h, hG]

theorem m_rule_eval (k : Int) (w : Word) (s r : String) :
    m_rule k w s r w =
      some (if s.toList <:+ w ∧
            decide (((vc_pairs (w.take (w.length - s.toList.length)) : Nat) : Int) > k) = true then
          (true, w.take (w.length - s.toList.length) ++ r.toList)
        else (false, w)) := by
  have := guarded_rule_eval
    (fun stem => (calculate_m stem).map fun m => decide (m > k))
    (fun stem => decide (((vc_pairs stem : Nat) : Int) > k))
    (fun x => by
      show (calculate_m x).map _ = _
      rw [calculate_m_eq_vc_pairs]
      rfl) w s.toList r.toList
  exact this

theorem or_else_of_eval (c d : Cond) (w x : Word) (cond : Prop) [Decidable cond]
    (h : c w = some (if cond then (true, x) else (false, w))) :
    or_else c d w = if cond then some (true, x) else d w := by
  unfold or_else
  rw [h]
  by_cases hc : cond <;> simp [hc]

theorem or_chain_eq_first_match (k : Int) (ok : Word → Word → Bool) (w : Word)
    (conds : List Cond) (table : List (String × String))
    (h : List.Forall₂ (fun (c : Cond) (sr : String × String) =>
      c w = some (if sr.1.toList <:+ w ∧
            (((vc_pairs (w.take (w.length - sr.1.toList.length)) : Nat) : Int) > k ∧
              ok sr.1.toList (w.take (w.length - sr.1.toList.length)) = true) then
          (true, w.take (w.length - sr.1.toList.length) ++ sr.2.toList)
        else (false, w))) conds table) :
    (or_chain conds w).map Prod.snd = first_match k ok table w := by
  induction h with
  | nil => rfl
  | @cons c sr cs rest hc _ ih =>
    obtain ⟨s, r⟩ := sr
    show (or_else c (or_chain cs) w).map Prod.snd = _
    rw [or_else_of_eval c (or_chain cs) w _ _ hc]
    unfold first_match
    simp only [calculate_m_eq_vc_pairs, Option.some_bind]
    by_cases h1 : s.toList <:+ w
    · by_cases h2 : (((vc_pairs (w.take (w.length - s.toList.length)) : Nat) : Int) > k ∧
          ok s.toList (w.take (w.length - s.toList.length)) = true)
      · rw [if_pos ⟨h1, h2⟩, if_pos h1, if_pos h2]
        rfl
      · rw [if_neg (fun h => h2 h.2), if_pos h1, if_neg h2, ih]
    · rw [if_neg (fun h => h1 h.1), if_neg h1, ih]

theorem m_rule_implements (k : Int) (ok : Word → Word → Bool) (w : Word) (s r : String)
    (hok : ∀ p, ok s.toList p = true) :
    m_rule k w s r w =
      some (if s.toList <:+ w ∧
            (((vc_pairs (w.take (w.length - s.toList.length)) : Nat) : Int) > k ∧
              ok s.toList (w.take (w.length - s.toList.length)) = true) then
          (true, w.take (w.length - s.toList.length) ++ r.toList)
        else (false, w)) := by
  rw [m_rule_eval]
  simp only [hok, and_true, decide_eq_true_eq]

theorem step_2_eq_first_match (w : Word) :
    step_2 w = first_match 0 no_extra step_2_table w := by
  refine or_chain_eq_first_match 0 no_extra w _ step_2_table ?_
  unfold step_2_table
  repeat first
    | exact List.Forall₂.nil
    | refine List.Forall₂.cons (m_rule_implements 0 no_extra w _ _ (fun _ => rfl)) ?_

theorem step_3_eq_first_match (w : Word) :
    step_3 w = first_match 0 no_extra step_3_table w := by
  refine or_chain_eq_first_match 0 no_extra w _ step_3_table ?_
  unfold step_3_table
  repeat first
    | exact List.Forall₂.nil
    | refine List.Forall₂.cons (m_rule_implements 0 no_extra w _ _ (fun _ => rfl)) ?_

theorem ion_rule_generic (w ion s1 t1 e : Word) :
    and_then
      (and_then (m_gt 1 w ion)
        (or_else
          (test fun _ => (maybe_remove_suffix w ion).bind fun stem => ends_with stem s1)
          (test fun _ => (maybe_remove_suffix w ion).bind fun stem => ends_with stem t1)))
      (apply_rule w ion e) w =
      some (if ion <:+ w ∧
            (((vc_pairs (w.take (w.length - ion.length)) : Nat) : Int) > 1 ∧
              (decide (s1 <:+ w.take (w.length - ion.length)) ||
                decide (t1 <:+ w.take (w.length - ion.length))) = true) then
          (true, w.take (w.length - ion.length) ++ e)
        else (false, w)) := by
  simp only [and_then, or_else, m_gt, test, maybe_remove_suffix_eq,
    calculate_m_eq_vc_pairs, ends_with_eq, apply_rule_eq, Option.some_bind, Option.map_some']
  generalize w.take (w.length - ion.length) = p
  by_cases h : ion <:+ w
  · by_cases hm : ((vc_pairs p : Nat) : Int) > 1
    · by_cases hs : s1 <:+ p
      · simp [h, hm, hs]
      · by_cases ht : t1 <:+ p
        · simp [h, hm, hs, ht]
        · simp [h, hm, hs, ht]
    · simp [h, hm]
  · by_cases hm : ((vc_pairs w : Nat) : Int) > 1
    · by_cases hs : s1 <:+ w
      · simp [h, hm, hs]
      · by_cases ht : t1 <:+ w
        · simp [h, hm, hs, ht]
        · simp [h, hm, hs, ht]
    · simp [h, hm]

theorem ion_rule_implements (w : Word) :
    and_then
      (and_then (m_gt 1 w "ion".toList)
        (or_else (ion_stem_ends_with w "s") (ion_stem_ends_with w "t")))
      (apply_rule w "ion".toList "".toList) w =
      some (if "ion".toList <:+ w ∧
            (((vc_pairs (w.take (w.length - "ion".toList.length)) : Nat) : Int) > 1 ∧
              ion_after_s_or_t "ion".toList (w.take (w.length - "ion".toList.length)) = true) then
          (true, w.take (w.length - "ion".toList.length) ++ "".toList)
        else (false, w)) :=
  ion_rule_generic w "ion".toList "s".toList "t".toList "".toList

theorem step_4_eq_first_match (w : Word) :
    step_4 w = first_match 1 ion_after_s_or_t step_4_table w := by
  refine or_chain_eq_first_match 1 ion_after_s_or_t w _ step_4_table ?_
  unfold step_4_table
  repeat first
    | exact List.Forall₂.nil
    | refine List.Forall₂.cons (ion_rule_implements w) ?_
    | refine List.Forall₂.cons
        (m_rule_implements 1 ion_after_s_or_t w _ _ (fun _ => rfl)) ?_

/-! ## `ends_with_cvc` -/

/-- Claim C6, as stated, fails on "how": the last three characters are
consonant, vowel, consonant and the code answers true, although the final
consonant is `w` and the test with the exclusion answers false. -/
theorem ends_with_cvc_how :
    ends_with_cvc "how".toList = some true ∧
    ends_with_cvc_excluding_wxy "how".toList = false ∧
    ends_with_cvc "how".toList ≠ some (ends_with_cvc_excluding_wxy "how".toList) := by
  decide

/-- Claim C6, amended: `ends_with_cvc(s)` is false when `len(s) < 3`, and
otherwise is true exactly when the last three characters of `s` are consonant,
vowel, consonant in that order; the final consonant may be any consonant,
`w`, `x` and `y` included. -/
theorem ends_with_cvc_spec (s : Word) :
    (s.length < 3 → ends_with_cvc s = some false) ∧
    (∀ p c1 v c2, s = p ++ [c1, v, c2] →
      ends_with_cvc s = some (is_consonant c1 && is_vowel v && is_consonant c2) ∧
      (ends_with_cvc s = some true ↔
        is_consonant c1 = true ∧ is_vowel v = true ∧ is_consonant c2 = true)) := by
  refine ⟨ends_with_cvc_short s, ?_⟩
  rintro p c1 v c2 rfl
  refine ⟨ends_with_cvc_append p c1 v c2, ?_⟩
  rw [ends_with_cvc_append]
  simp [and_assoc]

/-- Witness for the amended C6: a two-letter word, and the endings "hop"
and "how". -/
theorem ends_with_cvc_spec_witness :
    ends_with_cvc "at".toList = some false ∧
    ends_with_cvc "hop".toList = some true ∧
    ends_with_cvc "snow".toList = some true :=
  ⟨(ends_with_cvc_spec "at".toList).1 (by decide),
   ((ends_with_cvc_spec "hop".toList).2 [] 'h' 'o' 'p' (by decide)).1,
   ((ends_with_cvc_spec "snow".toList).2 ['s'] 'n' 'o' 'w' (by decide)).1⟩

/-! ## Steps 2, 3 and 4 -/

theorem first_match_total (k : Int) (ok : Word → Word → Bool) (w : Word) :
    ∀ table : List (String × String), ∃ r, first_match k ok table w = some r
  | [] => ⟨w, rfl⟩
  | (s, r) :: rest => by
    obtain ⟨r', hr'⟩ := first_match_total k ok w rest
    unfold first_match
    simp only [calculate_m_eq_vc_pairs, Option.some_bind, hr']
    split_ifs <;> exact ⟨_, rfl⟩

theorem first_match_of_no_suffix (k : Int) (ok : Word → Word → Bool) (w : Word) :
    ∀ table : List (String × String),
      (∀ sr ∈ table, ¬ sr.1.toList <:+ w) → first_match k ok table w = some w
  | [], _ => rfl
  | (s, r) :: rest, h => by
    unfold first_match
    rw [if_neg (h (s, r) (List.mem_cons_self _ _))]
    exact first_match_of_no_suffix k ok w rest
      (fun sr hsr => h sr (List.mem_cons_of_mem _ hsr))

theorem first_match_result (k : Int) (ok : Word → Word → Bool) (w res : Word) :
    ∀ table : List (String × String), first_match k ok table w = some res →
      res = w ∨ ∃ sr ∈ table, sr.1.toList <:+ w ∧
        ((vc_pairs (w.take (w.length - sr.1.toList.length)) : Nat) : Int) > k ∧
        ok sr.1.toList (w.take (w.length - sr.1.toList.length)) = true ∧
        res = w.take (w.length - sr.1.toList.length) ++ sr.2.toList
  | [], h => by
    left
    simpa [first_match] using h.symm
  | (s, r) :: rest, h => by
    unfold first_match at h
    simp only [calculate_m_eq_vc_pairs, Option.some_bind] at h
    by_cases h1 : s.toList <:+ w
    · rw [if_pos h1] at h
      by_cases h2 : ((vc_pairs (w.take (w.length - s.toList.length)) : Nat) : Int) > k ∧
          ok s.toList (w.take (w.length - s.toList.length)) = true
      · rw [if_pos h2] at h
        right
        exact ⟨(s, r), List.mem_cons_self _ _, h1, h2.1, h2.2, (Option.some.inj h).symm⟩
      · rw [if_neg h2] at h
        rcases first_match_result k ok w res rest h with h3 | ⟨sr, hm, h3⟩
        · exact Or.inl h3
        · exact Or.inr ⟨sr, List.mem_cons_of_mem _ hm, h3⟩
    · rw [if_neg h1] at h
      rcases first_match_result k ok w res rest h with h3 | ⟨sr, hm, h3⟩
      · exact Or.inl h3
      · exact Or.inr ⟨sr, List.mem_cons_of_mem _ hm, h3⟩

/-- Claim C13: `step_2` and `step_3` return on every word, and each equals the
first-match scan of its rule table: the result is `p ++ replacement` for the
first pair of the table, in order, with `w = p ++ suffix` and
`calculate_m(p) > 0`, and `w` if no pair qualifies. -/
theorem step_2_step_3_first_match :
    (∀ w, step_2 w = first_match 0 no_extra step_2_table w) ∧
    (∀ w, step_3 w = first_match 0 no_extra step_3_table w) ∧
    (∀ w, ∃ r, step_2 w = some r) ∧
    (∀ w, ∃ r, step_3 w = some r) ∧
    step_2_table =
      [("ational", "ate"), ("tional", "tion"), ("enci", "ence"), ("anci", "ance"),
       ("izer", "ize"), ("abli", "able"), ("alli", "al"), ("entli", "ent"),
       ("eli", "e"), ("ousli", "ous"), ("ization", "ize"), ("ation", "ate"),
       ("ator", "ate"), ("alism", "al"), ("iveness", "ive"), ("fulness", "ful"),
       ("ousness", "ous"), ("aliti", "al"), ("iviti", "ive"), ("biliti", "ble")] ∧
    step_3_table =
      [("icate", "ic"), ("ative", ""), ("alize", "al"), ("iciti", "ic"),
       ("ical", "ic"), ("ful", ""), ("ness", "")] := by
  refine ⟨step_2_eq_first_match, step_3_eq_first_match, fun w => ?_, fun w => ?_, rfl, rfl⟩
  · rw [step_2_eq_first_match]
    exact first_match_total _ _ _ _
  · rw [step_3_eq_first_match]
    exact first_match_total _ _ _ _

theorem suffix_of_append_same_length (p s t : Word) (h : t <:+ p ++ s)
    (hl : t.length = s.length) : t = s := by
  obtain ⟨q, hq⟩ := h
  have hlen : q.length = p.length := by
    have := congrArg List.length hq
    simp only [List.length_append] at this
    omega
  exact (List.append_inj hq hlen).2

theorem step_4_table_replacement :
    ∀ sr ∈ step_4_table, sr.2.toList = [] := by
  intro sr hm
  simp only [step_4_table, List.mem_cons, List.mem_singleton, List.not_mem_nil,
    or_false] at hm
  rcases hm with h | h | h | h | h | h | h | h | h | h | h | h | h | h | h | h | h | h | h <;>
    rw [h] <;> rfl

/-- Claim C14: `step_4(w)` is `p` for the first suffix `s` of the ordered list
with `w = p ++ s`, `calculate_m(p) > 1` and, when `s` is "ion", `p` ending in
"s" or "t"; it is `w` if no suffix qualifies.  Hence whenever `step_4` changes
the word the remaining stem has measure above 1, and "ion" is never removed
from a stem that ends in neither "s" nor "t". -/
theorem step_4_first_match :
    (∀ w, step_4 w = first_match 1 ion_after_s_or_t step_4_table w) ∧
    (∀ w, ∃ r, step_4 w = some r) ∧
    (∀ w r, step_4 w = some r → r ≠ w →
      ∃ m, calculate_m r = some m ∧ m > 1) ∧
    (∀ p, ¬ "s".toList <:+ p → ¬ "t".toList <:+ p →
      step_4 (p ++ "ion".toList) ≠ some p) := by
  refine ⟨step_4_eq_first_match, fun w => ?_, fun w r h hne => ?_, fun p hs ht h => ?_⟩
  · rw [step_4_eq_first_match]
    exact first_match_total _ _ _ _
  · rw [step_4_eq_first_match] at h
    rcases first_match_result _ _ _ _ _ h with h1 | ⟨sr, hm, _, h2, _, h3⟩
    · exact absurd h1 hne
    · rw [step_4_table_replacement sr hm, List.append_nil] at h3
      subst h3
      exact ⟨_, calculate_m_eq_vc_pairs _, h2⟩
  · rw [step_4_eq_first_match] at h
    rcases first_match_result _ _ _ _ _ h with h1 | ⟨sr, hm, h1, _, h2, h3⟩
    · have := congrArg List.length h1
      simp at this
    · rw [step_4_table_replacement sr hm, List.append_nil] at h3
      have hlen : sr.1.toList.length = "ion".toList.length := by
        have h4 := congrArg List.length h3
        have h5 := h1.length_le
        simp only [List.length_append, List.length_take] at h4 h5 ⊢
        omega
      have heq := suffix_of_append_same_length p "ion".toList sr.1.toList h1 hlen
      rw [heq] at h2 h3
      simp only [take_append_suffix] at h2
      simp only [ion_after_s_or_t, bne_self_eq_false, Bool.false_or, Bool.or_eq_true,
        decide_eq_true_eq] at h2
      rcases h2 with h2 | h2
      · exact hs h2
      · exact ht h2

/-- Witness for C14: "revival" loses "al" (the stem "reviv" has measure 2),
and "onion" keeps "ion" (the stem "on" ends in neither "s" nor "t"). -/
theorem step_4_first_match_witness :
    (∃ m, calculate_m "reviv".toList = some m ∧ m > 1) ∧
    step_4 ("on".toList ++ "ion".toList) ≠ some "on".toList :=
  ⟨step_4_first_match.2.2.1 "revival".toList "reviv".toList (by decide!) (by decide),
   step_4_first_match.2.2.2 "on".toList (by decide) (by decide)⟩

/-! ## Step 1c -/

theorem step_1c_eq (w : Word) :
    step_1c w =
      some (if "y".toList <:+ w ∧
            (w.take (w.length - "y".toList.length)).any is_vowel = true then
          w.take (w.length - "y".toList.length) ++ "i".toList
        else w) := by
  simp only [step_1c, maybe_remove_suffix_eq, contains_vowel_eq, apply_rule_eq,
    Option.some_bind, Option.map_some']
  by_cases h : "y".toList <:+ w
  · cases hv : (w.take (w.length - "y".toList.length)).any is_vowel <;>
      simp only [h, hv, if_true, true_and, Bool.false_eq_true, if_false]
  · cases hv : w.any is_vowel <;>
      simp only [h, hv, if_true, false_and, Bool.false_eq_true, if_false]

/-- Claim C12: `step_1c(w)` is `p ++ "i"` if `w = p ++ "y"` and
`contains_vowel(p)` is true; it is `w` if `w = p ++ "y"` and `p` has no vowel,
and also if `w` does not end in "y". -/
theorem step_1c_spec (w : Word) :
    (∀ p, w = p ++ "y".toList → contains_vowel p = some true →
      step_1c w = some (p ++ "i".toList)) ∧
    (∀ p, w = p ++ "y".toList → contains_vowel p = some false →
      step_1c w = some w) ∧
    (¬ "y".toList <:+ w → step_1c w = some w) := by
  refine ⟨?_, ?_, ?_⟩
  · rintro p rfl hv
    rw [contains_vowel_eq] at hv
    rw [step_1c_eq, take_append_suffix, if_pos ⟨⟨p, rfl⟩, Option.some.inj hv⟩]
  · rintro p rfl hv
    rw [contains_vowel_eq] at hv
    rw [step_1c_eq, take_append_suffix, if_neg]
    rw [Option.some.inj hv]
    simp
  · intro h
    rw [step_1c_eq, if_neg (fun hh => h hh.1)]

/-- Witness for C12: "happy" becomes "happi", "sky" has no vowel before the
"y", and "feed" does not end in "y". -/
theorem step_1c_spec_witness :
    step_1c "happy".toList = some ("happ".toList ++ "i".toList) ∧
    step_1c "sky".toList = some "sky".toList ∧
    step_1c "feed".toList = some "feed".toList :=
  ⟨(step_1c_spec "happy".toList).1 "happ".toList (by decide) (by decide),
   (step_1c_spec "sky".toList).2.1 "sk".toList (by decide) (by decide),
   (step_1c_spec "feed".toList).2.2 (by decide)⟩

/-! ## Step 5 -/

theorem word_shape (r : Word) :
    r = [] ∨ (∃ a, r = [a]) ∨ ∃ q b a, r = q ++ [b, a] := by
  rcases List.eq_nil_or_concat r with rfl | ⟨q, a, rfl⟩
  · exact Or.inl rfl
  · rcases List.eq_nil_or_concat q with rfl | ⟨q2, b, rfl⟩
    · exact Or.inr (Or.inl ⟨a, rfl⟩)
    · exact Or.inr (Or.inr ⟨q2, b, a, by simp⟩)

theorem suffix_two_iff (q : Word) (b a x y : Char) :
    [x, y] <:+ q ++ [b, a] ↔ x = b ∧ y = a := by
  rw [← List.reverse_prefix]
  simp only [List.reverse_cons, List.reverse_nil, List.nil_append, List.reverse_append,
    List.cons_append, List.cons_prefix_cons, List.nil_prefix, and_true]
  tauto

theorem suffix_one_iff (q : Word) (a x : Char) :
    [x] <:+ q ++ [a] ↔ x = a := by
  rw [← List.reverse_prefix]
  simp only [List.reverse_cons, List.reverse_nil, List.nil_append, List.reverse_append,
    List.cons_append, List.cons_prefix_cons, List.nil_prefix, and_true]

theorem double_consonant_end_append (q : Word) (b a : Char) :
    double_consonant_end (q ++ [b, a]) = (is_consonant a && a == b) := by
  simp [double_consonant_end]

theorem last_is_append (ch : Char) (q : Word) (a : Char) :
    last_is ch (q ++ [a]) = some (a == ch, q ++ [a]) := by
  show ((str_at (q ++ [a]) (((q ++ [a]).length : Int) - 1)).map fun c => c == ch).map
    (fun b => (b, q ++ [a])) = _
  rw [str_at_last]
  simp

theorem last_is_append2 (ch : Char) (q : Word) (b a : Char) :
    last_is ch (q ++ [b, a]) = some (a == ch, q ++ [b, a]) := by
  have := last_is_append ch (q ++ [b]) a
  simpa using this

theorem step_5b_eval_chars (r : Word) :
    (and_then
      (and_then
        (and_then
          (test fun result => (calculate_m result).map fun m => decide (m > 1))
          (test ends_with_double_consonant))
        (last_is 'l'))
      (fun result => apply_rule result ['l'] [] result) r).map Prod.snd =
      some (if ((vc_pairs r : Nat) : Int) > 1 ∧ ['l', 'l'] <:+ r then
        r.take (r.length - 1) else r) := by
  simp only [and_then, test, calculate_m_eq_vc_pairs, ends_with_double_consonant_eq,
    Option.map_some', Option.some_bind]
  by_cases hm : ((vc_pairs r : Nat) : Int) > 1
  · rcases word_shape r with rfl | ⟨a, rfl⟩ | ⟨q, b, a, rfl⟩
    · simp [vc_pairs] at hm
    · simp [vc_pairs] at hm
    · have e : q ++ [b, a] = (q ++ [b]) ++ [a] := by simp
      simp only [double_consonant_end_append, suffix_two_iff, hm, decide_True, if_true,
        true_and]
      by_cases hl : a = 'l'
      · subst hl
        by_cases hb : b = 'l'
        · subst hb
          have hcl : is_consonant 'l' = true := by decide
          have hs : ['l'] <:+ q ++ ['l', 'l'] := ⟨q ++ ['l'], by simp⟩
          simp [hcl, last_is_append2, apply_rule_eq, hs]
        · have hb2 : ('l' == b) = false := by simpa using Ne.symm hb
          simp [hb2, Ne.symm hb]
      · cases hc : (is_consonant a && a == b)
        · simp [Ne.symm hl]
        · simp [hl, Ne.symm hl, last_is_append2]
  · simp [hm]

theorem step_5b_eval (r : Word) :
    (and_then
      (and_then
        (and_then
          (test fun result => (calculate_m result).map fun m => decide (m > 1))
          (test ends_with_double_consonant))
        (last_is 'l'))
      (fun result => apply_rule result "l".toList "".toList result) r).map
        (fun did_step_5b => did_step_5b.2) =
      some (if ((vc_pairs r : Nat) : Int) > 1 ∧ "ll".toList <:+ r then
        r.take (r.length - 1) else r) :=
  step_5b_eval_chars r

theorem step_5a_second_generic (w e r : Word) :
    and_then
      (and_then
        (test fun _ =>
          (maybe_remove_suffix w e).bind fun stem =>
          (calculate_m stem).map fun m => decide (m = 1))
        (not_ (test fun _ => (maybe_remove_suffix w e).bind ends_with_cvc)))
      (apply_rule w e r) w =
      some (if e <:+ w ∧
            (((vc_pairs (w.take (w.length - e.length)) : Nat) : Int) = 1 ∧
              cvc_end (w.take (w.length - e.length)) = false) then
          (true, w.take (w.length - e.length) ++ r)
        else (false, w)) := by
  simp only [and_then, not_, test, maybe_remove_suffix_eq, calculate_m_eq_vc_pairs,
    ends_with_cvc_eq, apply_rule_eq, Option.some_bind, Option.map_some']
  generalize w.take (w.length - e.length) = p
  by_cases h : e <:+ w
  · by_cases hm : ((vc_pairs p : Nat) : Int) = 1
    · cases hc : cvc_end p <;> simp [h, hm, hc]
    · simp [h, hm]
  · by_cases hm : ((vc_pairs w : Nat) : Int) = 1
    · cases hc : cvc_end w <;> simp [h, hm, hc]
    · simp [h, hm]

theorem step_5a_generic (w : Word) (e r : String) :
    ∃ b, or_else (m_rule 1 w e r)
      (and_then
        (and_then
          (test fun _ =>
            (maybe_remove_suffix w e.toList).bind fun stem =>
            (calculate_m stem).map fun m => decide (m = 1))
          (not_ (test fun _ => (maybe_remove_suffix w e.toList).bind ends_with_cvc)))
        (apply_rule w e.toList r.toList)) w =
      some (b, if e.toList <:+ w ∧
            (((vc_pairs (w.take (w.length - e.toList.length)) : Nat) : Int) > 1 ∨
              (((vc_pairs (w.take (w.length - e.toList.length)) : Nat) : Int) = 1 ∧
                cvc_end (w.take (w.length - e.toList.length)) = false)) then
          w.take (w.length - e.toList.length) ++ r.toList
        else w) := by
  rw [or_else_of_eval _ _ w _ _ (m_rule_eval 1 w e r), step_5a_second_generic]
  generalize w.take (w.length - e.toList.length) = p
  generalize e.toList = e'
  generalize r.toList = r'
  by_cases h : e' <:+ w
  · by_cases hm : ((vc_pairs p : Nat) : Int) > 1
    · exact ⟨true, by simp [h, hm]⟩
    · by_cases hm1 : ((vc_pairs p : Nat) : Int) = 1
      · cases hc : cvc_end p
        · exact ⟨true, by simp [h, hm, hm1, hc]⟩
        · exact ⟨false, by simp [h, hm, hm1, hc]⟩
      · exact ⟨false, by simp [h, hm, hm1]⟩
  · exact ⟨false, by simp [h]⟩

theorem step_5b_eq_ref (r : Word) :
    (and_then
      (and_then
        (and_then
          (test fun result => (calculate_m result).map fun m => decide (m > 1))
          (test ends_with_double_consonant))
        (last_is 'l'))
      (fun result => apply_rule result "l".toList "".toList result) r).map
        (fun did_step_5b => did_step_5b.2) = step_5b_ref r := by
  rw [step_5b_eval]
  unfold step_5b_ref
  rw [calculate_m_eq_vc_pairs]
  simp only [Option.some_bind]
  by_cases hc : ((vc_pairs r : Nat) : Int) > 1 ∧ "ll".toList <:+ r
  · rw [if_pos hc, if_pos hc]
  · rw [if_neg hc, if_neg hc]

theorem step_5_eq (w : Word) :
    step_5 w = (step_5a_ref w).bind step_5b_ref := by
  obtain ⟨b, hb⟩ := step_5a_generic w "e" ""
  unfold step_5
  simp only [step_5b_eq_ref]
  rw [hb]
  simp only [Option.some_bind]
  have e1 : "e".toList.length = 1 := rfl
  rw [e1]
  unfold step_5a_ref
  simp only [calculate_m_eq_vc_pairs, ends_with_cvc_eq, Option.some_bind]
  generalize w.take (w.length - 1) = p
  have hnil : p ++ "".toList = p := List.append_nil p
  rw [hnil]
  by_cases h : "e".toList <:+ w
  · by_cases hc : (((vc_pairs p : Nat) : Int) > 1 ∨
        (((vc_pairs p : Nat) : Int) = 1 ∧ cvc_end p = false))
    · rw [if_pos ⟨h, hc⟩, if_pos h, if_pos hc]
      rfl
    · rw [if_neg (fun hh => hc hh.2), if_pos h, if_neg hc]
      rfl
  · rw [if_neg (fun hh => h hh.1), if_neg h]
    rfl

theorem step_5a_ref_total (w : Word) : ∃ r, step_5a_ref w = some r := by
  unfold step_5a_ref
  simp only [calculate_m_eq_vc_pairs, ends_with_cvc_eq, Option.some_bind]
  split_ifs <;> exact ⟨_, rfl⟩

theorem step_5b_ref_total (r : Word) : ∃ x, step_5b_ref r = some x := by
  unfold step_5b_ref
  simp only [calculate_m_eq_vc_pairs, Option.some_bind]
  split_ifs <;> exact ⟨_, rfl⟩

theorem step_5_total (w : Word) : ∃ r, step_5 w = some r := by
  rw [step_5_eq]
  obtain ⟨r, hr⟩ := step_5a_ref_total w
  rw [hr]
  exact step_5b_ref_total r

/-- Claim C15: `step_5(w) = b(a(w))`, where `a` removes a final "e" when the
measure of the rest is above 1, or is 1 and the rest does not end
consonant-vowel-consonant, and `b` removes a final "l" from a word ending in
"ll" whose measure is above 1; `b` runs on the output of `a`. -/
theorem step_5_spec :
    (∀ w, step_5 w = (step_5a_ref w).bind step_5b_ref) ∧
    (∀ w, ∃ r, step_5 w = some r) ∧
    (∀ p, step_5a_ref (p ++ "e".toList) =
      (calculate_m p).bind fun m =>
      (ends_with_cvc p).bind fun cvc =>
      if m > 1 ∨ (m = 1 ∧ cvc = false) then some p else some (p ++ "e".toList)) ∧
    (∀ q, step_5b_ref (q ++ "ll".toList) =
      (calculate_m (q ++ "ll".toList)).bind fun m =>
      if m > 1 then some (q ++ "l".toList) else some (q ++ "ll".toList)) ∧
    step_5a_ref "controlle".toList = some "controll".toList ∧
    step_5b_ref "controlle".toList = some "controlle".toList ∧
    step_5 "controlle".toList = some "control".toList := by
  refine ⟨step_5_eq, step_5_total, fun p => ?_, fun q => ?_, by decide!, by decide!,
    by decide!⟩
  · have hs : "e".toList <:+ p ++ "e".toList := ⟨p, rfl⟩
    have ht := take_append_suffix p "e".toList
    have e1 : "e".toList.length = 1 := rfl
    rw [e1] at ht
    unfold step_5a_ref
    rw [if_pos hs]
    simp only [ht]
  · have hs : "ll".toList <:+ q ++ "ll".toList := ⟨q, rfl⟩
    have ht : (q ++ "ll".toList).take ((q ++ "ll".toList).length - 1) = q ++ "l".toList := by
      have := take_append_suffix (q ++ "l".toList) "l".toList
      have e : q ++ "l".toList ++ "l".toList = q ++ "ll".toList := by
        rw [List.append_assoc]
        rfl
      rw [e] at this
      exact this
    unfold step_5b_ref
    simp only [hs, and_true, ht]

/-! ## Step 1b -/

theorem double_consonant_rule_chars (r : Word) :
    and_then
      (and_then (test ends_with_double_consonant)
        (not_ (or_chain [last_is 'l', last_is 's', last_is 'z'])))
      drop_last_letter r =
      some (if double_consonant_end r = true ∧
            ¬ (['l'] <:+ r ∨ ['s'] <:+ r ∨ ['z'] <:+ r) then
          (true, r.take (r.length - 1))
        else (false, r)) := by
  simp only [and_then, not_, or_chain, or_else, test, ends_with_double_consonant_eq,
    Option.map_some', Option.some_bind]
  rcases word_shape r with rfl | ⟨a, rfl⟩ | ⟨q, b, a, rfl⟩
  · simp [double_consonant_end]
  · simp [double_consonant_end]
  · have e : q ++ [b, a] = (q ++ [b]) ++ [a] := by simp
    have hs : ∀ x : Char, [x] <:+ q ++ [b, a] ↔ x = a := fun x => by
      rw [e, suffix_one_iff]
    have ht : List.take (q.length + 1) (q ++ [b, a]) = q ++ [b] := by
      rw [e]
      exact List.take_left' (by simp)
    have hd : drop_last_letter (q ++ [b, a]) = some (true, q ++ [b]) := by
      unfold drop_last_letter
      rw [str_at_last]
      have : [a] <:+ q ++ [b, a] := (hs a).2 rfl
      simp [apply_rule_eq, this, ht]
    simp only [last_is_append2, hs, Option.some_bind, hd]
    cases hc : double_consonant_end (q ++ [b, a])
    · simp
    · by_cases h1 : a = 'l'
      · simp [h1]
      · by_cases h2 : a = 's'
        · simp [h2]
        · by_cases h3 : a = 'z'
          · simp [h3]
          · simp [h1, h2, h3, Ne.symm h1, Ne.symm h2, Ne.symm h3, hd, ht]

theorem measure_cvc_rule_chars (r : Word) :
    and_then
      (and_then
        (test fun result => (calculate_m result).map fun m => decide (m = 1))
        (test ends_with_cvc))
      append_e r =
      some (if ((vc_pairs r : Nat) : Int) = 1 ∧ cvc_end r = true then
          (true, r ++ ['e'])
        else (false, r)) := by
  simp only [and_then, test, append_e, calculate_m_eq_vc_pairs, ends_with_cvc_eq,
    Option.map_some', Option.some_bind]
  by_cases hm : ((vc_pairs r : Nat) : Int) = 1
  · cases hc : cvc_end r <;> simp [hm, hc]
  · simp [hm]

theorem append_rule_generic (r s t : Word) (x : Word)
    (ht : ∀ p, p ++ t = p ++ s ++ x) :
    (fun result => apply_rule result s t result) r =
      some (if s <:+ r then (true, r ++ x) else (false, r)) := by
  show apply_rule r s t r = _
  rw [apply_rule_eq]
  by_cases h : s <:+ r
  · rw [if_pos h, if_pos h]
    obtain ⟨p, rfl⟩ := h
    rw [take_append_suffix, ht]
  · rw [if_neg h, if_neg h]

theorem step_1b_cleanup_eq (r : Word) :
    (or_chain [
        fun result => apply_rule result "at".toList "ate".toList result,
        fun result => apply_rule result "bl".toList "ble".toList result,
        fun result => apply_rule result "iz".toList "ize".toList result,
        and_then
          (and_then (test ends_with_double_consonant)
            (not_ (or_chain [last_is 'l', last_is 's', last_is 'z'])))
          drop_last_letter,
        and_then
          (and_then
            (test fun result => (calculate_m result).map fun m => decide (m = 1))
            (test ends_with_cvc))
          append_e] r).map (fun q => q.2) = step_1b_cleanup_ref r := by
  have h1 := append_rule_generic r "at".toList "ate".toList "e".toList (fun p => by simp)
  have h2 := append_rule_generic r "bl".toList "ble".toList "e".toList (fun p => by simp)
  have h3 := append_rule_generic r "iz".toList "ize".toList "e".toList (fun p => by simp)
  have h4 : _ = some (if double_consonant_end r = true ∧
            ¬ ("l".toList <:+ r ∨ "s".toList <:+ r ∨ "z".toList <:+ r) then
          (true, r.take (r.length - 1))
        else (false, r)) := double_consonant_rule_chars r
  have h5 : _ = some (if ((vc_pairs r : Nat) : Int) = 1 ∧ cvc_end r = true then
          (true, r ++ "e".toList)
        else (false, r)) := measure_cvc_rule_chars r
  show (or_else _ (or_else _ (or_else _ (or_else _ (or_else _ (or_chain [])))))
    r).map _ = _
  rw [or_else_of_eval (fun result => apply_rule result "at".toList "ate".toList result)
      _ r _ _ h1,
    or_else_of_eval (fun result => apply_rule result "bl".toList "ble".toList result)
      _ r _ _ h2,
    or_else_of_eval (fun result => apply_rule result "iz".toList "ize".toList result)
      _ r _ _ h3,
    or_else_of_eval _ _ r _ _ h4, or_else_of_eval _ _ r _ _ h5]
  unfold step_1b_cleanup_ref
  simp only [ends_with_double_consonant_eq, calculate_m_eq_vc_pairs, ends_with_cvc_eq,
    Option.some_bind]
  by_cases c1 : "at".toList <:+ r
  · rw [if_pos c1, if_pos (Or.inl c1)]
    rfl
  · by_cases c2 : "bl".toList <:+ r
    · rw [if_neg c1, if_pos c2, if_pos (Or.inr (Or.inl c2))]
      rfl
    · by_cases c3 : "iz".toList <:+ r
      · rw [if_neg c1, if_neg c2, if_pos c3, if_pos (Or.inr (Or.inr c3))]
        rfl
      · have c123 : ¬ ("at".toList <:+ r ∨ "bl".toList <:+ r ∨ "iz".toList <:+ r) := by
          tauto
        rw [if_neg c1, if_neg c2, if_neg c3, if_neg c123]
        by_cases c4 : double_consonant_end r = true ∧
            ¬ ("l".toList <:+ r ∨ "s".toList <:+ r ∨ "z".toList <:+ r)
        · rw [if_pos c4, if_pos c4]
          rfl
        · rw [if_neg c4, if_neg c4]
          by_cases c5 : ((vc_pairs r : Nat) : Int) = 1 ∧ cvc_end r = true
          · rw [if_pos c5, if_pos c5]
            rfl
          · rw [if_neg c5, if_neg c5]
            rfl

theorem step_1b_of_eed (p : Word) :
    step_1b (p ++ "eed".toList) =
      (calculate_m p).bind fun m =>
        if m > 0 then some (p ++ "ee".toList) else some (p ++ "eed".toList) := by
  have hs : "eed".toList <:+ p ++ "eed".toList := ⟨p, rfl⟩
  unfold step_1b
  simp only [ends_with_eq, hs, decide_True, Option.some_bind, if_true, m_gt, test,
    maybe_remove_suffix_append, apply_rule_append, calculate_m_eq_vc_pairs, Option.map_some']
  by_cases hm : ((vc_pairs p : Nat) : Int) > 0
  · simp only [hm, decide_True, if_true]
  · simp only [hm, decide_False, if_false, Bool.false_eq_true]

theorem step_1b_of_not_eed (w : Word) (h : ¬ "eed".toList <:+ w) :
    step_1b w =
      if "ed".toList <:+ w ∧
          (w.take (w.length - "ed".toList.length)).any is_vowel = true then
        step_1b_cleanup_ref (w.take (w.length - "ed".toList.length))
      else if "ing".toList <:+ w ∧
          (w.take (w.length - "ing".toList.length)).any is_vowel = true then
        step_1b_cleanup_ref (w.take (w.length - "ing".toList.length))
      else some w := by
  have h1 := guarded_rule_eval contains_vowel (fun x => x.any is_vowel) contains_vowel_eq
    w "ed".toList "".toList
  have h2 := guarded_rule_eval contains_vowel (fun x => x.any is_vowel) contains_vowel_eq
    w "ing".toList "".toList
  unfold step_1b
  simp only [ends_with_eq, h, decide_False, Option.some_bind, Bool.false_eq_true, if_false,
    step_1b_cleanup_eq]
  rw [or_else_of_eval _ _ w _ _ h1, h2]
  by_cases c1 : "ed".toList <:+ w ∧
      (w.take (w.length - "ed".toList.length)).any is_vowel = true
  · rw [if_pos c1, if_pos c1]
    simp only [Option.some_bind, if_true]
    rw [show "".toList = ([] : Word) from rfl, List.append_nil]
  · rw [if_neg c1, if_neg c1]
    by_cases c2 : "ing".toList <:+ w ∧
        (w.take (w.length - "ing".toList.length)).any is_vowel = true
    · rw [if_pos c2, if_pos c2]
      simp only [Option.some_bind, if_true]
      rw [show "".toList = ([] : Word) from rfl, List.append_nil]
    · rw [if_neg c2, if_neg c2]
      simp only [Option.some_bind, Bool.false_eq_true, if_false]

theorem step_1b_cleanup_ref_total (r : Word) :
    ∃ x, step_1b_cleanup_ref r = some x := by
  unfold step_1b_cleanup_ref
  simp only [ends_with_double_consonant_eq, calculate_m_eq_vc_pairs, ends_with_cvc_eq,
    Option.some_bind]
  split_ifs <;> exact ⟨_, rfl⟩

theorem step_1b_total (w : Word) : ∃ r, step_1b w = some r := by
  by_cases h : "eed".toList <:+ w
  · obtain ⟨p, rfl⟩ := h
    rw [step_1b_of_eed, calculate_m_eq_vc_pairs]
    simp only [Option.some_bind]
    split_ifs <;> exact ⟨_, rfl⟩
  · rw [step_1b_of_not_eed w h]
    split_ifs
    · exact step_1b_cleanup_ref_total _
    · exact step_1b_cleanup_ref_total _
    · exact ⟨_, rfl⟩

/-- Claim C11: `step_1b` returns on every word and equals the reference of
the specification. (1) If `w = p ++ "eed"` the result is `p ++ "ee"` when
`calculate_m(p) > 0` and `w` otherwise, and no "ed"/"ing" rule is tried.
(2) Else if `w = p ++ "ed"` with `contains_vowel(p)`, or failing that
`w = p ++ "ing"` with `contains_vowel(p)`, the result is the cleanup cascade
applied to `p`. (3) Otherwise the result is `w`. -/
theorem step_1b_spec (w : Word) :
    (∀ p, w = p ++ "eed".toList →
      step_1b w = (calculate_m p).bind fun m =>
        if m > 0 then some (p ++ "ee".toList) else some w) ∧
    (¬ "eed".toList <:+ w → ∀ p, w = p ++ "ed".toList →
      contains_vowel p = some true → step_1b w = step_1b_cleanup_ref p) ∧
    (¬ "eed".toList <:+ w →
      (∀ q, w = q ++ "ed".toList → contains_vowel q = some false) →
      ∀ p, w = p ++ "ing".toList → contains_vowel p = some true →
      step_1b w = step_1b_cleanup_ref p) ∧
    (¬ "eed".toList <:+ w →
      (∀ q, w = q ++ "ed".toList → contains_vowel q = some false) →
      (∀ q, w = q ++ "ing".toList → contains_vowel q = some false) →
      step_1b w = some w) ∧
    (∃ r, step_1b w = some r) := by
  refine ⟨?_, ?_, ?_, ?_, step_1b_total w⟩
  · rintro p rfl
    exact step_1b_of_eed p
  · rintro h p rfl hv
    rw [contains_vowel_eq] at hv
    rw [step_1b_of_not_eed _ h, take_append_suffix,
      if_pos ⟨⟨p, rfl⟩, Option.some.inj hv⟩]
  · rintro h hed p rfl hv
    rw [contains_vowel_eq] at hv
    rw [step_1b_of_not_eed _ h, if_neg, take_append_suffix,
      if_pos ⟨⟨p, rfl⟩, Option.some.inj hv⟩]
    rintro ⟨⟨q, hq⟩, hq2⟩
    have := hed q hq.symm
    rw [contains_vowel_eq] at this
    rw [← hq, take_append_suffix] at hq2
    rw [hq2] at this
    cases this
  · rintro h hed hing
    rw [step_1b_of_not_eed _ h, if_neg, if_neg]
    · rintro ⟨⟨q, hq⟩, hq2⟩
      have := hing q hq.symm
      rw [contains_vowel_eq] at this
      rw [← hq, take_append_suffix] at hq2
      rw [hq2] at this
      cases this
    · rintro ⟨⟨q, hq⟩, hq2⟩
      have := hed q hq.symm
      rw [contains_vowel_eq] at this
      rw [← hq, take_append_suffix] at hq2
      rw [hq2] at this
      cases this

/-- Witness for C11: "agreed" (eed, measure 1), "hopped" (ed), "hopping"
(ing) and "sing" (no vowel before "ing"). -/
theorem step_1b_spec_witness :
    step_1b "agreed".toList =
      ((calculate_m "agr".toList).bind fun m =>
        if m > 0 then some ("agr".toList ++ "ee".toList) else some "agreed".toList) ∧
    step_1b "hopped".toList = step_1b_cleanup_ref "hopp".toList ∧
    step_1b "hopping".toList = step_1b_cleanup_ref "hopp".toList ∧
    step_1b "sing".toList = some "sing".toList :=
  ⟨(step_1b_spec "agreed".toList).1 "agr".toList (by decide),
   (step_1b_spec "hopped".toList).2.1 (by decide) "hopp".toList (by decide) (by decide),
   (step_1b_spec "hopping".toList).2.2.1 (by decide)
     (fun q hq => absurd
       ((suffix_iff_exists_append "hopping".toList "ed".toList).2 ⟨q, hq⟩)
       (by decide : ¬ "ed".toList <:+ "hopping".toList))
     "hopp".toList (by decide) (by decide),
   (step_1b_spec "sing".toList).2.2.2.1 (by decide)
     (fun q hq => absurd
       ((suffix_iff_exists_append "sing".toList "ed".toList).2 ⟨q, hq⟩)
       (by decide : ¬ "ed".toList <:+ "sing".toList))
     (fun q hq => by
       have hq2 : q ++ "ing".toList = "s".toList ++ "ing".toList := hq.symm
       rw [List.append_cancel_right hq2]
       decide)⟩

/-! ## Identity on non-match -/

theorem step_1a_total (w : Word) : ∃ r, step_1a w = some r := by
  simp only [step_1a, or_chain, or_else, apply_rule_eq, Option.some_bind]
  split_ifs <;> exact ⟨_, rfl⟩

theorem step_1a_of_not (w : Word) (h : ¬ "s".toList <:+ w) : step_1a w = some w := by
  have h1 : ¬ "sses".toList <:+ w := fun hh =>
    h (List.IsSuffix.trans (by decide : "s".toList <:+ "sses".toList) hh)
  have h2 : ¬ "ies".toList <:+ w := fun hh =>
    h (List.IsSuffix.trans (by decide : "s".toList <:+ "ies".toList) hh)
  have h3 : ¬ "ss".toList <:+ w := fun hh =>
    h (List.IsSuffix.trans (by decide : "s".toList <:+ "ss".toList) hh)
  simp only [step_1a, or_chain, or_else, apply_rule_of_not _ _ _ _ h1,
    apply_rule_of_not _ _ _ _ h2, apply_rule_of_not _ _ _ _ h3,
    apply_rule_of_not _ _ _ _ h]
  rfl

theorem step_5_of_not (w : Word) (he : ¬ "e".toList <:+ w) (hl : ¬ "l".toList <:+ w) :
    step_5 w = some w := by
  have hll : ¬ "ll".toList <:+ w := fun hh =>
    hl (List.IsSuffix.trans (by decide : "l".toList <:+ "ll".toList) hh)
  rw [step_5_eq]
  unfold step_5a_ref
  rw [if_neg he]
  simp only [Option.some_bind]
  unfold step_5b_ref
  simp only [calculate_m_eq_vc_pairs, Option.some_bind, hll, and_false, if_false]

/-- Claim C16: each step returns its input unchanged when the input ends with
none of the suffixes the step tests: "s" for step 1a; "eed", "ed", "ing" for
step 1b; "y" for step 1c; the suffixes of the rule table for steps 2, 3 and 4;
"e" and "l" for step 5. -/
theorem steps_identity_on_non_match (w : Word) :
    (¬ "s".toList <:+ w → step_1a w = some w) ∧
    (¬ "eed".toList <:+ w → ¬ "ed".toList <:+ w → ¬ "ing".toList <:+ w →
      step_1b w = some w) ∧
    (¬ "y".toList <:+ w → step_1c w = some w) ∧
    ((∀ sr ∈ step_2_table, ¬ sr.1.toList <:+ w) → step_2 w = some w) ∧
    ((∀ sr ∈ step_3_table, ¬ sr.1.toList <:+ w) → step_3 w = some w) ∧
    ((∀ sr ∈ step_4_table, ¬ sr.1.toList <:+ w) → step_4 w = some w) ∧
    (¬ "e".toList <:+ w → ¬ "l".toList <:+ w → step_5 w = some w) := by
  refine ⟨step_1a_of_not w, ?_, ?_, ?_, ?_, ?_, step_5_of_not w⟩
  · intro h1 h2 h3
    rw [step_1b_of_not_eed w h1, if_neg (fun hh => h2 hh.1), if_neg (fun hh => h3 hh.1)]
  · intro h
    rw [step_1c_eq, if_neg (fun hh => h hh.1)]
  · intro h
    rw [step_2_eq_first_match]
    exact first_match_of_no_suffix _ _ _ _ h
  · intro h
    rw [step_3_eq_first_match]
    exact first_match_of_no_suffix _ _ _ _ h
  · intro h
    rw [step_4_eq_first_match]
    exact first_match_of_no_suffix _ _ _ _ h

/-- Witness for C16: "cat" ends with none of the suffixes of any step. -/
theorem steps_identity_on_non_match_witness :
    step_1a "cat".toList = some "cat".toList ∧
    step_1b "cat".toList = some "cat".toList ∧
    step_1c "cat".toList = some "cat".toList ∧
    step_2 "cat".toList = some "cat".toList ∧
    step_3 "cat".toList = some "cat".toList ∧
    step_4 "cat".toList = some "cat".toList ∧
    step_5 "cat".toList = some "cat".toList :=
  ⟨(steps_identity_on_non_match "cat".toList).1 (by decide),
   (steps_identity_on_non_match "cat".toList).2.1 (by decide) (by decide) (by decide),
   (steps_identity_on_non_match "cat".toList).2.2.1 (by decide),
   (steps_identity_on_non_match "cat".toList).2.2.2.1 (by decide),
   (steps_identity_on_non_match "cat".toList).2.2.2.2.1 (by decide),
   (steps_identity_on_non_match "cat".toList).2.2.2.2.2.1 (by decide),
   (steps_identity_on_non_match "cat".toList).2.2.2.2.2.2 (by decide) (by decide)⟩

/-! ## `contains_vowel` -/

/-- Claim C19: `contains_vowel(s)` always returns, and returns true exactly
when some character of `s` is one of a, e, i, o, u in lower or upper case;
`y` and `Y` are not vowels, so it returns false exactly on the strings all of
whose characters are consonants, "rhythm" among them. -/
theorem contains_vowel_spec (s : Word) :
    (contains_vowel s = some true ∨ contains_vowel s = some false) ∧
    (contains_vowel s = some true ↔
      ∃ c ∈ s, c ∈ ['a', 'e', 'i', 'o', 'u', 'A', 'E', 'I', 'O', 'U']) ∧
    (contains_vowel s = some false ↔ ∀ c ∈ s, is_consonant c = true) ∧
    is_vowel 'y' = false ∧ is_vowel 'Y' = false ∧
    contains_vowel "rhythm".toList = some false := by
  refine ⟨?_, ?_, ?_, by decide, by decide, by decide⟩
  · rw [contains_vowel_eq]
    cases s.any is_vowel <;> simp
  · rw [contains_vowel_eq]
    simp only [Option.some.injEq, List.any_eq_true, is_vowel_iff]
  · rw [contains_vowel_eq]
    simp [is_consonant]

/-! ## Totality of the steps -/

theorem new_ending_checked_of_suffix (c s r : Word) (h : s <:+ c) :
    new_ending_checked c (s.length : Int) r = new_ending c (s.length : Int) r := by
  unfold new_ending_checked
  have := h.length_le
  rw [if_pos ⟨by omega, by omega⟩]

theorem stem_total (w : Word) : ∃ r, stem w = some r := by
  unfold stem
  obtain ⟨r1, h1⟩ := step_1a_total w
  obtain ⟨r2, h2⟩ := step_1b_total r1
  obtain ⟨r3, h3⟩ : ∃ r, step_1c r2 = some r := ⟨_, step_1c_eq r2⟩
  obtain ⟨r4, h4⟩ : ∃ r, step_2 r3 = some r := by
    rw [step_2_eq_first_match]
    exact first_match_total _ _ _ _
  obtain ⟨r5, h5⟩ : ∃ r, step_3 r4 = some r := by
    rw [step_3_eq_first_match]
    exact first_match_total _ _ _ _
  obtain ⟨r6, h6⟩ : ∃ r, step_4 r5 = some r := by
    rw [step_4_eq_first_match]
    exact first_match_total _ _ _ _
  obtain ⟨r7, h7⟩ := step_5_total r6
  exact ⟨r7, by simp only [h1, h2, h3, h4, h5, h6, h7, Option.some_bind]⟩

/-- Claim C20: every step returns a string on every input, whatever its
length, so no `.at` access made by a step or by a primitive it calls is out
of range (an out-of-range access makes the result `none`); the primitives
return on every input as well; and the two functions that call `new_ending`,
`apply_rule` and `maybe_remove_suffix`, behave the same when `new_ending`
checks `suffix_length <= len(candidate)`, so every call meets that bound. -/
theorem steps_total :
    (∀ w, ∃ r, step_1a w = some r) ∧
    (∀ w, ∃ r, step_1b w = some r) ∧
    (∀ w, ∃ r, step_1c w = some r) ∧
    (∀ w, ∃ r, step_2 w = some r) ∧
    (∀ w, ∃ r, step_3 w = some r) ∧
    (∀ w, ∃ r, step_4 w = some r) ∧
    (∀ w, ∃ r, step_5 w = some r) ∧
    (∀ w, ∃ r, stem w = some r) ∧
    (∀ c s, ∃ b, ends_with c s = some b) ∧
    (∀ s, ∃ b, ends_with_double_consonant s = some b) ∧
    (∀ s, ∃ b, ends_with_cvc s = some b) ∧
    (∀ s, ∃ b, contains_vowel s = some b) ∧
    (∀ s, ∃ m, calculate_m s = some m) ∧
    (∀ c s r result, apply_rule c s r result =
      (ends_with c s).bind fun e =>
        if e then (new_ending_checked c (s.length : Int) r).map fun x => (true, x)
        else some (false, c)) ∧
    (∀ c s, maybe_remove_suffix c s =
      (ends_with c s).bind fun e =>
        if e then new_ending_checked c (s.length : Int) [] else some c) := by
  refine ⟨step_1a_total, step_1b_total, fun w => ⟨_, step_1c_eq w⟩, fun w => ?_, fun w => ?_,
    fun w => ?_, step_5_total, stem_total, fun c s => ⟨_, ends_with_eq c s⟩,
    fun s => ⟨_, ends_with_double_consonant_eq s⟩, fun s => ⟨_, ends_with_cvc_eq s⟩,
    fun s => ⟨_, contains_vowel_eq s⟩, fun s => ⟨_, calculate_m_eq_vc_pairs s⟩,
    fun c s r result => ?_, fun c s => ?_⟩
  · rw [step_2_eq_first_match]
    exact first_match_total _ _ _ _
  · rw [step_3_eq_first_match]
    exact first_match_total _ _ _ _
  · rw [step_4_eq_first_match]
    exact first_match_total _ _ _ _
  · unfold apply_rule
    rw [ends_with_eq]
    by_cases h : s <:+ c
    · simp only [h, decide_True, Option.some_bind, if_true,
        new_ending_checked_of_suffix c s r h]
    · simp only [h, decide_False, Option.some_bind, Bool.false_eq_true, if_false]
  · unfold maybe_remove_suffix
    rw [ends_with_eq]
    by_cases h : s <:+ c
    · simp only [h, decide_True, Option.some_bind, if_true,
        new_ending_checked_of_suffix c s [] h]
    · simp only [h, decide_False, Option.some_bind, Bool.false_eq_true, if_false]

/-! ## The strings given to `calculate_m` -/

theorem stripped_ne_nil (w s : Word) (hw : w ≠ []) (hs : w ≠ s) :
    (if s <:+ w then w.take (w.length - s.length) else w) ≠ [] := by
  by_cases h : s <:+ w
  · rw [if_pos h]
    obtain ⟨p, rfl⟩ := h
    rw [take_append_suffix]
    rintro rfl
    exact hs rfl
  · rw [if_neg h]
    exact hw

theorem maybe_remove_suffix_bind_congr {α : Type} (f g : Word → Option α) (w s : Word)
    (h : f (if s <:+ w then w.take (w.length - s.length) else w) =
      g (if s <:+ w then w.take (w.length - s.length) else w)) :
    (maybe_remove_suffix w s).bind f = (maybe_remove_suffix w s).bind g := by
  rw [maybe_remove_suffix_eq]
  exact h

theorem m_gt_with_eq (cm : Word → Option Int) (hcm : ∀ s, s ≠ [] → cm s = calculate_m s)
    (k : Int) (w s : Word) (hw : w ≠ []) (hs : w ≠ s) :
    m_gt_with cm k w s = m_gt k w s := by
  unfold m_gt_with m_gt
  have h : (fun (_ : Word) => (maybe_remove_suffix w s).bind fun stem =>
        (cm stem).map fun m => decide (m > k)) =
      (fun (_ : Word) => (maybe_remove_suffix w s).bind fun stem =>
        (calculate_m stem).map fun m => decide (m > k)) := by
    funext _
    apply maybe_remove_suffix_bind_congr
    simp only [hcm _ (stripped_ne_nil w s hw hs)]
  rw [h]

theorem m_rule_with_eq (cm : Word → Option Int) (hcm : ∀ s, s ≠ [] → cm s = calculate_m s)
    (k : Int) (w : Word) (hw : w ≠ []) (s r : String) (hs : w ≠ s.toList) :
    m_rule_with cm k w s r = m_rule k w s r := by
  unfold m_rule_with m_rule
  rw [m_gt_with_eq cm hcm k w s.toList hw hs]

theorem step_2_with_eq (cm : Word → Option Int) (hcm : ∀ s, s ≠ [] → cm s = calculate_m s)
    (w : Word) (hw : w ≠ []) (hne : ∀ sr ∈ step_2_table, w ≠ sr.1.toList) :
    step_2_with cm w = step_2 w := by
  show (or_chain (step_2_table.map fun sr => m_rule_with cm 0 w sr.1 sr.2) w).map _ =
    (or_chain (step_2_table.map fun sr => m_rule 0 w sr.1 sr.2) w).map _
  rw [List.map_congr_left (fun sr hm => m_rule_with_eq cm hcm 0 w hw sr.1 sr.2 (hne sr hm))]

theorem step_3_with_eq (cm : Word → Option Int) (hcm : ∀ s, s ≠ [] → cm s = calculate_m s)
    (w : Word) (hw : w ≠ []) (hne : ∀ sr ∈ step_3_table, w ≠ sr.1.toList) :
    step_3_with cm w = step_3 w := by
  show (or_chain (step_3_table.map fun sr => m_rule_with cm 0 w sr.1 sr.2) w).map _ =
    (or_chain (step_3_table.map fun sr => m_rule 0 w sr.1 sr.2) w).map _
  rw [List.map_congr_left (fun sr hm => m_rule_with_eq cm hcm 0 w hw sr.1 sr.2 (hne sr hm))]

theorem step_4_with_eq (cm : Word → Option Int) (hcm : ∀ s, s ≠ [] → cm s = calculate_m s)
    (w : Word) (hw : w ≠ []) (hne : ∀ sr ∈ step_4_table, w ≠ sr.1.toList) :
    step_4_with cm w = step_4 w := by
  have hion : w ≠ "ion".toList := hne ("ion", "") (by simp [step_4_table])
  show (or_chain ((step_4_table.take 11).map (fun sr => m_rule_with cm 1 w sr.1 sr.2) ++
      and_then
        (and_then (m_gt_with cm 1 w "ion".toList)
          (or_else (ion_stem_ends_with w "s") (ion_stem_ends_with w "t")))
        (apply_rule w "ion".toList "".toList) ::
      (step_4_table.drop 12).map (fun sr => m_rule_with cm 1 w sr.1 sr.2)) w).map _ =
    (or_chain ((step_4_table.take 11).map (fun sr => m_rule 1 w sr.1 sr.2) ++
      and_then
        (and_then (m_gt 1 w "ion".toList)
          (or_else (ion_stem_ends_with w "s") (ion_stem_ends_with w "t")))
        (apply_rule w "ion".toList "".toList) ::
      (step_4_table.drop 12).map (fun sr => m_rule 1 w sr.1 sr.2)) w).map _
  rw [List.map_congr_left (fun sr hm => m_rule_with_eq cm hcm 1 w hw sr.1 sr.2
      (hne sr (List.mem_of_mem_take hm))),
    List.map_congr_left (fun sr hm => m_rule_with_eq cm hcm 1 w hw sr.1 sr.2
      (hne sr (List.mem_of_mem_drop hm))),
    m_gt_with_eq cm hcm 1 w "ion".toList hw hion]

theorem step_5b_with_eq (cm : Word → Option Int) (r : Word) (h : cm r = calculate_m r) :
    and_then
      (and_then
        (and_then
          (test fun result => (cm result).map fun m => decide (m > 1))
          (test ends_with_double_consonant))
        (last_is 'l'))
      (fun result => apply_rule result "l".toList "".toList result) r =
    and_then
      (and_then
        (and_then
          (test fun result => (calculate_m result).map fun m => decide (m > 1))
          (test ends_with_double_consonant))
        (last_is 'l'))
      (fun result => apply_rule result "l".toList "".toList result) r := by
  simp only [and_then, test, h]

theorem vc_pairs_nil : vc_pairs [] = 0 := rfl

theorem step_5_with_eq (cm : Word → Option Int) (hcm : ∀ s, s ≠ [] → cm s = calculate_m s)
    (w : Word) (hw : w ≠ []) (he : w ≠ "e".toList) :
    step_5_with cm w = step_5 w := by
  have h1 : (fun (_ : Word) => (maybe_remove_suffix w "e".toList).bind fun stem =>
        (cm stem).map fun m => decide (m = 1)) =
      (fun (_ : Word) => (maybe_remove_suffix w "e".toList).bind fun stem =>
        (calculate_m stem).map fun m => decide (m = 1)) := by
    funext _
    apply maybe_remove_suffix_bind_congr
    simp only [hcm _ (stripped_ne_nil w "e".toList hw he)]
  obtain ⟨b, hb⟩ := step_5a_generic w "e" ""
  unfold step_5_with step_5
  simp only []
  rw [m_rule_with_eq cm hcm 1 w hw "e" "" he, h1, hb]
  simp only [Option.some_bind]
  congr 1
  apply step_5b_with_eq
  apply hcm
  by_cases hc : "e".toList <:+ w ∧
      (((vc_pairs (w.take (w.length - "e".toList.length)) : Nat) : Int) > 1 ∨
        (((vc_pairs (w.take (w.length - "e".toList.length)) : Nat) : Int) = 1 ∧
          cvc_end (w.take (w.length - "e".toList.length)) = false))
  · rw [if_pos hc]
    intro h0
    have h00 : w.take (w.length - "e".toList.length) = [] :=
      (List.append_eq_nil.1 h0).1
    rw [h00, vc_pairs_nil] at hc
    rcases hc.2 with h | ⟨h, _⟩ <;> simp at h
  · rw [if_neg hc]
    exact hw

theorem or_else_congr_tail (c d d' : Cond) (w x : Word) (cond : Prop) [Decidable cond]
    (h : c w = some (if cond then (true, x) else (false, w))) (hd : d w = d' w) :
    or_else c d w = or_else c d' w := by
  rw [or_else_of_eval c d w x cond h, or_else_of_eval c d' w x cond h, hd]

theorem step_1b_cleanup_with_eq (cm : Word → Option Int) (r : Word)
    (h : cm r = calculate_m r) :
    or_chain [
        fun result => apply_rule result "at".toList "ate".toList result,
        fun result => apply_rule result "bl".toList "ble".toList result,
        fun result => apply_rule result "iz".toList "ize".toList result,
        and_then
          (and_then (test ends_with_double_consonant)
            (not_ (or_chain [last_is 'l', last_is 's', last_is 'z'])))
          drop_last_letter,
        and_then
          (and_then
            (test fun result => (cm result).map fun m => decide (m = 1))
            (test ends_with_cvc))
          append_e] r =
    or_chain [
        fun result => apply_rule result "at".toList "ate".toList result,
        fun result => apply_rule result "bl".toList "ble".toList result,
        fun result => apply_rule result "iz".toList "ize".toList result,
        and_then
          (and_then (test ends_with_double_consonant)
            (not_ (or_chain [last_is 'l', last_is 's', last_is 'z'])))
          drop_last_letter,
        and_then
          (and_then
            (test fun result => (calculate_m result).map fun m => decide (m = 1))
            (test ends_with_cvc))
          append_e] r := by
  have h1 := append_rule_generic r "at".toList "ate".toList "e".toList (fun p => by simp)
  have h2 := append_rule_generic r "bl".toList "ble".toList "e".toList (fun p => by simp)
  have h3 := append_rule_generic r "iz".toList "ize".toList "e".toList (fun p => by simp)
  have h4 := double_consonant_rule_chars r
  have h5 : or_else
      (and_then
        (and_then
          (test fun result => (cm result).map fun m => decide (m = 1))
          (test ends_with_cvc))
        append_e) (or_chain []) r =
    or_else
      (and_then
        (and_then
          (test fun result => (calculate_m result).map fun m => decide (m = 1))
          (test ends_with_cvc))
        append_e) (or_chain []) r := by
    simp only [or_else, and_then, test, h]
  exact or_else_congr_tail
    (fun result => apply_rule result "at".toList "ate".toList result) _ _ r _ _ h1
    (or_else_congr_tail
      (fun result => apply_rule result "bl".toList "ble".toList result) _ _ r _ _ h2
      (or_else_congr_tail
        (fun result => apply_rule result "iz".toList "ize".toList result) _ _ r _ _ h3
        (or_else_congr_tail _ _ _ r _ _ h4 h5)))

theorem ne_nil_of_any (r : Word) (h : r.any is_vowel = true) : r ≠ [] := by
  rintro rfl
  simp at h

theorem step_1b_with_eq (cm : Word → Option Int) (hcm : ∀ s, s ≠ [] → cm s = calculate_m s)
    (w : Word) (hw : w ≠ []) (he : w ≠ "eed".toList) :
    step_1b_with cm w = step_1b w := by
  by_cases heed : "eed".toList <:+ w
  · unfold step_1b_with step_1b
    simp only [ends_with_eq, heed, decide_True, Option.some_bind, if_true]
    rw [m_gt_with_eq cm hcm 0 w "eed".toList hw he]
  · have h1 := guarded_rule_eval contains_vowel (fun x => x.any is_vowel) contains_vowel_eq
      w "ed".toList "".toList
    have h2 := guarded_rule_eval contains_vowel (fun x => x.any is_vowel) contains_vowel_eq
      w "ing".toList "".toList
    have hnil : ∀ p : Word, p ++ "".toList = p := fun p => List.append_nil p
    unfold step_1b_with step_1b
    simp only [ends_with_eq, heed, decide_False, Option.some_bind, Bool.false_eq_true,
      if_false]
    rw [or_else_of_eval _ _ w _ _ h1, h2]
    by_cases c1 : "ed".toList <:+ w ∧
        (w.take (w.length - "ed".toList.length)).any is_vowel = true
    · rw [if_pos c1]
      simp only [Option.some_bind, if_true, hnil]
      rw [step_1b_cleanup_with_eq cm _ (hcm _ (ne_nil_of_any _ c1.2))]
    · rw [if_neg c1]
      by_cases c2 : "ing".toList <:+ w ∧
          (w.take (w.length - "ing".toList.length)).any is_vowel = true
      · rw [if_pos c2]
        simp only [Option.some_bind, if_true, hnil]
        rw [step_1b_cleanup_with_eq cm _ (hcm _ (ne_nil_of_any _ c2.2))]
      · rw [if_neg c2]
        simp only [Option.some_bind, Bool.false_eq_true, if_false]

theorem calculate_m_nonempty_eq (s : Word) (h : s ≠ []) :
    calculate_m_nonempty s = calculate_m s := by
  unfold calculate_m_nonempty
  rw [if_neg h]

/-- Claim C21, as stated, fails on the non-empty word "al": `step_4` evaluates
`calculate_m` on `maybe_remove_suffix("al", "al")`, which is the empty string,
so `step_4` run with the measure that fails on the empty string fails, while
the source step returns "al". -/
theorem calculate_m_gets_empty_string :
    "al".toList ≠ [] ∧
    maybe_remove_suffix "al".toList "al".toList = some [] ∧
    step_4_with calculate_m "al".toList = step_4 "al".toList ∧
    step_4 "al".toList = some "al".toList ∧
    step_4_with calculate_m_nonempty "al".toList = none := by
  decide!

/-- Claim C21, amended: with `calculate_m` itself as the measure the
parametrised steps are the source steps.  For a non-empty word `w` that is not
itself a suffix whose measure the step tests ("eed" in step 1b, the table
suffixes in steps 2, 3 and 4, "e" in step 5), the step run with the measure
that fails on the empty string returns what the source step returns, so every
string on which the step evaluates `calculate_m` is non-empty.  When `w` is
such a suffix the run fails: `calculate_m` is evaluated on the empty string.
Steps 1a and 1c do not call `calculate_m`. -/
theorem measured_strings_nonempty :
    (∀ w, step_1b_with calculate_m w = step_1b w ∧
      step_2_with calculate_m w = step_2 w ∧
      step_3_with calculate_m w = step_3 w ∧
      step_4_with calculate_m w = step_4 w ∧
      step_5_with calculate_m w = step_5 w) ∧
    (∀ w, w ≠ [] → w ≠ "eed".toList →
      step_1b_with calculate_m_nonempty w = step_1b w) ∧
    (∀ w, w ≠ [] → (∀ sr ∈ step_2_table, w ≠ sr.1.toList) →
      step_2_with calculate_m_nonempty w = step_2 w) ∧
    (∀ w, w ≠ [] → (∀ sr ∈ step_3_table, w ≠ sr.1.toList) →
      step_3_with calculate_m_nonempty w = step_3 w) ∧
    (∀ w, w ≠ [] → (∀ sr ∈ step_4_table, w ≠ sr.1.toList) →
      step_4_with calculate_m_nonempty w = step_4 w) ∧
    (∀ w, w ≠ [] → w ≠ "e".toList →
      step_5_with calculate_m_nonempty w = step_5 w) ∧
    step_1b_with calculate_m_nonempty "eed".toList = none ∧
    (∀ sr ∈ step_2_table, step_2_with calculate_m_nonempty sr.1.toList = none) ∧
    (∀ sr ∈ step_3_table, step_3_with calculate_m_nonempty sr.1.toList = none) ∧
    (∀ sr ∈ step_4_table, step_4_with calculate_m_nonempty sr.1.toList = none) ∧
    step_5_with calculate_m_nonempty "e".toList = none := by
  refine ⟨fun w => ⟨rfl, rfl, rfl, rfl, rfl⟩,
    fun w hw he => step_1b_with_eq _ calculate_m_nonempty_eq w hw he,
    fun w hw hne => step_2_with_eq _ calculate_m_nonempty_eq w hw hne,
    fun w hw hne => step_3_with_eq _ calculate_m_nonempty_eq w hw hne,
    fun w hw hne => step_4_with_eq _ calculate_m_nonempty_eq w hw hne,
    fun w hw he => step_5_with_eq _ calculate_m_nonempty_eq w hw he,
    by decide!, by decide!, by decide!, by decide!, by decide!⟩

/-- Witness for the amended C21: "agreed" in step 1b, "relational" in step 2,
"triplicate" in step 3, "revival" in step 4 and "probate" in step 5. -/
theorem measured_strings_nonempty_witness :
    step_1b_with calculate_m_nonempty "agreed".toList = step_1b "agreed".toList ∧
    step_2_with calculate_m_nonempty "relational".toList = step_2 "relational".toList ∧
    step_3_with calculate_m_nonempty "triplicate".toList = step_3 "triplicate".toList ∧
    step_4_with calculate_m_nonempty "revival".toList = step_4 "revival".toList ∧
    step_5_with calculate_m_nonempty "probate".toList = step_5 "probate".toList :=
  ⟨measured_strings_nonempty.2.1 "agreed".toList (by decide) (by decide),
   measured_strings_nonempty.2.2.1 "relational".toList (by decide) (by decide),
   measured_strings_nonempty.2.2.2.1 "triplicate".toList (by decide) (by decide),
   measured_strings_nonempty.2.2.2.2.1 "revival".toList (by decide) (by decide),
   measured_strings_nonempty.2.2.2.2.2.1 "probate".toList (by decide) (by decide)⟩

/-! ## The output parameter of `apply_rule` -/

/-- Claim C22: on the candidate "feed" and the suffix "s", which does not
match, `apply_rule` returns false and leaves "feed", the candidate, in `result`
although `result` held "x" before the call; the value left in `result` never
depends on the value it held before. -/
theorem apply_rule_overwrites_result :
    ends_with "feed".toList "s".toList = some false ∧
    apply_rule "feed".toList "s".toList "".toList "x".toList =
      some (false, "feed".toList) ∧
    "feed".toList ≠ "x".toList ∧
    (∀ candidate suffix replacement result result2,
      apply_rule candidate suffix replacement result =
        apply_rule candidate suffix replacement result2) :=
  ⟨by decide, by decide, by decide, fun _ _ _ _ _ => rfl⟩

/-! ## Lengths -/

theorem length_replace_le (w s r : Word) (h : s <:+ w) (hl : r.length ≤ s.length) :
    (w.take (w.length - s.length) ++ r).length ≤ w.length := by
  have := h.length_le
  simp only [List.length_append, List.length_take]
  omega

theorem step_1a_length (w : Word) : ∃ r, step_1a w = some r ∧ r.length ≤ w.length := by
  by_cases h1 : "sses".toList <:+ w
  · obtain ⟨p, rfl⟩ := h1
    refine ⟨p ++ "ss".toList, ?_, by simp⟩
    simp only [step_1a, or_chain, or_else, apply_rule_append]
    rfl
  by_cases h2 : "ies".toList <:+ w
  · obtain ⟨p, rfl⟩ := h2
    refine ⟨p ++ "i".toList, ?_, by simp⟩
    simp only [step_1a, or_chain, or_else, apply_rule_of_not _ _ _ _ h1, apply_rule_append]
    rfl
  by_cases h3 : "ss".toList <:+ w
  · obtain ⟨p, rfl⟩ := h3
    refine ⟨p ++ "ss".toList, ?_, le_refl _⟩
    simp only [step_1a, or_chain, or_else, apply_rule_of_not _ _ _ _ h1,
      apply_rule_of_not _ _ _ _ h2, apply_rule_append]
    rfl
  by_cases h4 : "s".toList <:+ w
  · obtain ⟨p, rfl⟩ := h4
    refine ⟨p ++ "".toList, ?_, by simp⟩
    simp only [step_1a, or_chain, or_else, apply_rule_of_not _ _ _ _ h1,
      apply_rule_of_not _ _ _ _ h2, apply_rule_of_not _ _ _ _ h3, apply_rule_append]
    rfl
  · exact ⟨w, step_1a_of_not w h4, le_refl _⟩

theorem step_1b_cleanup_ref_length (r : Word) :
    ∃ x, step_1b_cleanup_ref r = some x ∧ x.length ≤ r.length + 1 := by
  unfold step_1b_cleanup_ref
  simp only [ends_with_double_consonant_eq, calculate_m_eq_vc_pairs, ends_with_cvc_eq,
    Option.some_bind]
  split_ifs
  · exact ⟨_, rfl, by simp⟩
  · exact ⟨_, rfl, by simp only [List.length_take]; omega⟩
  · exact ⟨_, rfl, by simp⟩
  · exact ⟨_, rfl, by omega⟩

theorem step_1b_length (w : Word) : ∃ r, step_1b w = some r ∧ r.length ≤ w.length := by
  by_cases h : "eed".toList <:+ w
  · obtain ⟨p, rfl⟩ := h
    rw [step_1b_of_eed, calculate_m_eq_vc_pairs]
    simp only [Option.some_bind]
    split_ifs
    · exact ⟨_, rfl, by simp⟩
    · exact ⟨_, rfl, le_refl _⟩
  · rw [step_1b_of_not_eed w h]
    split_ifs with h1 h2
    · obtain ⟨x, hx, hl⟩ := step_1b_cleanup_ref_length (w.take (w.length - "ed".toList.length))
      have hlen : 2 ≤ w.length := h1.1.length_le
      have hl2 : x.length ≤ (w.take (w.length - 2)).length + 1 := hl
      refine ⟨x, hx, ?_⟩
      simp only [List.length_take] at hl2
      omega
    · obtain ⟨x, hx, hl⟩ := step_1b_cleanup_ref_length (w.take (w.length - "ing".toList.length))
      have hlen : 3 ≤ w.length := h2.1.length_le
      have hl2 : x.length ≤ (w.take (w.length - 3)).length + 1 := hl
      refine ⟨x, hx, ?_⟩
      simp only [List.length_take] at hl2
      omega
    · exact ⟨_, rfl, le_refl _⟩

theorem step_1c_length (w : Word) : ∃ r, step_1c w = some r ∧ r.length ≤ w.length := by
  rw [step_1c_eq]
  split_ifs with h
  · exact ⟨_, rfl, length_replace_le w _ _ h.1 (by decide)⟩
  · exact ⟨_, rfl, le_refl _⟩

theorem first_match_length (k : Int) (ok : Word → Word → Bool)
    (table : List (String × String))
    (ht : ∀ sr ∈ table, sr.2.toList.length ≤ sr.1.toList.length) (w : Word) :
    ∃ r, first_match k ok table w = some r ∧ r.length ≤ w.length := by
  obtain ⟨r, hr⟩ := first_match_total k ok w table
  refine ⟨r, hr, ?_⟩
  rcases first_match_result k ok w r table hr with rfl | ⟨sr, hm, hs, _, _, rfl⟩
  · exact le_refl _
  · exact length_replace_le w _ _ hs (ht sr hm)

theorem step_2_length (w : Word) : ∃ r, step_2 w = some r ∧ r.length ≤ w.length := by
  rw [step_2_eq_first_match]
  exact first_match_length _ _ _ (by decide) w

theorem step_3_length (w : Word) : ∃ r, step_3 w = some r ∧ r.length ≤ w.length := by
  rw [step_3_eq_first_match]
  exact first_match_length _ _ _ (by decide) w

theorem step_4_length (w : Word) : ∃ r, step_4 w = some r ∧ r.length ≤ w.length := by
  rw [step_4_eq_first_match]
  exact first_match_length _ _ _ (by decide) w

theorem step_5a_ref_length (w : Word) :
    ∃ r, step_5a_ref w = some r ∧ r.length ≤ w.length := by
  unfold step_5a_ref
  simp only [calculate_m_eq_vc_pairs, ends_with_cvc_eq, Option.some_bind]
  split_ifs
  · exact ⟨_, rfl, by simp only [List.length_take]; omega⟩
  · exact ⟨_, rfl, le_refl _⟩
  · exact ⟨_, rfl, le_refl _⟩

theorem step_5b_ref_length (r : Word) :
    ∃ x, step_5b_ref r = some x ∧ x.length ≤ r.length := by
  unfold step_5b_ref
  simp only [calculate_m_eq_vc_pairs, Option.some_bind]
  split_ifs
  · exact ⟨_, rfl, by simp only [List.length_take]; omega⟩
  · exact ⟨_, rfl, le_refl _⟩

theorem step_5_length (w : Word) : ∃ r, step_5 w = some r ∧ r.length ≤ w.length := by
  rw [step_5_eq]
  obtain ⟨r, hr, hl⟩ := step_5a_ref_length w
  obtain ⟨x, hx, hl2⟩ := step_5b_ref_length r
  exact ⟨x, by rw [hr]; exact hx, le_trans hl2 hl⟩

theorem stem_length (w : Word) : ∃ r, stem w = some r ∧ r.length ≤ w.length := by
  obtain ⟨r1, h1, l1⟩ := step_1a_length w
  obtain ⟨r2, h2, l2⟩ := step_1b_length r1
  obtain ⟨r3, h3, l3⟩ := step_1c_length r2
  obtain ⟨r4, h4, l4⟩ := step_2_length r3
  obtain ⟨r5, h5, l5⟩ := step_3_length r4
  obtain ⟨r6, h6, l6⟩ := step_4_length r5
  obtain ⟨r7, h7, l7⟩ := step_5_length r6
  refine ⟨r7, ?_, by omega⟩
  unfold stem
  simp only [h1, h2, h3, h4, h5, h6, h7, Option.some_bind]

/-- Claim C23: every step returns, on every string, a string no longer than
its input, and so does the pipeline.  The cleanup cascade of step 1b adds at
most one character, and it runs only on a word from which "ed" or "ing" has
been stripped. -/
theorem steps_never_lengthen :
    (∀ w, ∃ r, step_1a w = some r ∧ r.length ≤ w.length) ∧
    (∀ w, ∃ r, step_1b w = some r ∧ r.length ≤ w.length) ∧
    (∀ w, ∃ r, step_1c w = some r ∧ r.length ≤ w.length) ∧
    (∀ w, ∃ r, step_2 w = some r ∧ r.length ≤ w.length) ∧
    (∀ w, ∃ r, step_3 w = some r ∧ r.length ≤ w.length) ∧
    (∀ w, ∃ r, step_4 w = some r ∧ r.length ≤ w.length) ∧
    (∀ w, ∃ r, step_5 w = some r ∧ r.length ≤ w.length) ∧
    (∀ w, ∃ r, stem w = some r ∧ r.length ≤ w.length) ∧
    (∀ r, ∃ x, step_1b_cleanup_ref r = some x ∧ x.length ≤ r.length + 1) :=
  ⟨step_1a_length, step_1b_length, step_1c_length, step_2_length, step_3_length,
    step_4_length, step_5_length, stem_length, step_1b_cleanup_ref_length⟩

/-! ## End-to-end values of the pipeline -/

/-- Claim C3: the pipeline returns "caress" for "caresses", "poni" for
"ponies", "feed" for "feed", "plaster" for "plastered" and "conflat" for
"conflated". -/
theorem stem_reference_values :
    stem "caresses".toList = some "caress".toList ∧
    stem "ponies".toList = some "poni".toList ∧
    stem "feed".toList = some "feed".toList ∧
    stem "plastered".toList = some "plaster".toList ∧
    stem "conflated".toList = some "conflat".toList := by
  decide!

/-- Claim C4, as stated, fails: the pipeline does not return "agree" for
"agreed". -/
theorem stem_agreed_ne_agree :
    stem "agreed".toList ≠ some "agree".toList := by
  decide!

/-- Claim C4, amended: step 1b rewrites "agreed" to "agree", the measure of
"agre" is 1 and "agre" does not end consonant-vowel-consonant, so step 5
removes the final "e" and the pipeline returns "agre". -/
theorem stem_agreed :
    step_1b "agreed".toList = some "agree".toList ∧
    calculate_m "agre".toList = some 1 ∧
    ends_with_cvc "agre".toList = some false ∧
    step_5 "agree".toList = some "agre".toList ∧
    stem "agreed".toList = some "agre".toList := by
  decide!

/-- Claim C5, as stated, fails: the pipeline does not return "relate" for
"relational". -/
theorem stem_relational_ne_relate :
    stem "relational".toList ≠ some "relate".toList := by
  decide!

/-- Claim C5, amended: step 2 rewrites "relational" to "relate", the measure
of "relat" is 2, so step 5 removes the final "e" and the pipeline returns
"relat". -/
theorem stem_relational :
    step_2 "relational".toList = some "relate".toList ∧
    calculate_m "relat".toList = some 2 ∧
    step_5 "relate".toList = some "relat".toList ∧
    stem "relational".toList = some "relat".toList := by
  decide!

/-! ## Re-stemming and the empty word -/

/-- Claim C17: stemming is not idempotent: "agreed" stems to "agre", and
"agre" stems to "agr". -/
theorem stem_not_idempotent :
    ∃ w r1 r2, stem w = some r1 ∧ stem r1 = some r2 ∧ r2 ≠ r1 :=
  ⟨"agreed".toList, "agre".toList, "agr".toList, by decide!, by decide!, by decide⟩

/-- Claim C18: every step maps the empty word to the empty word without
failing, and so does the pipeline. -/
theorem empty_word_unchanged :
    step_1a [] = some [] ∧ step_1b [] = some [] ∧ step_1c [] = some [] ∧
    step_2 [] = some [] ∧ step_3 [] = some [] ∧ step_4 [] = some [] ∧
    step_5 [] = some [] ∧ stem [] = some [] ∧ stem "".toList = some "".toList := by
  decide!

end Stemmer
